import Mathlib

/-
Verification of the moorex effect-reconciliation engine.

The development shallowly embeds the engine sources:
  * `create-moorex.ts` (createMoorex, startEffect, cancelObsoleteEffects,
    startNewEffects, reconcileEffects, the batch processor),
  * `utils.ts` (guardCurrentEffect, withEffectErrorHandling,
    attachCompletionHandlers),
  * `signal-queue.ts` (createSignalQueue),
  * `event-emitter.ts` (createEventEmitter).

Modelling conventions:
  * JavaScript `Map` objects (insertion ordered, unique keys) are association
    lists `List (String × α)` with `mapGet`/`mapSet`/`mapDelete` mirroring
    `get`/`set`/`delete`; `Record<string, Effect>` values returned by
    `effectsAt` are association lists as well.
  * Object identity of a `RunningEffect` entry (the `!==` staleness check in
    `guardCurrentEffect`) is modelled by a fresh allocation token `id : Nat`
    drawn from a counter, exactly the portable generation-token equivalent.
  * User functions that may throw (`runEffect`, `cancel`) return a `TResult`;
    `withEffectErrorHandling`'s try/catch is interpreted on that result.
  * An effect's `start(dispatch)` is modelled per the async contract of its
    declared type `Promise<void>`: the promise's settlement (resolution or
    rejection, covering start failure) is delivered by the environment as a
    `Cmd.settle` command, which runs the continuations installed by
    `attachCompletionHandlers`.  A `cancel` implementation may synchronously
    re-enter the scoped dispatch; this is modelled by `CancelBehavior`.
  * The single-threaded event loop is a command trace: each command is one
    atomic synchronous section (a microtask or an external call).
-/

namespace Moorex

/-- Result of invoking a user-supplied callback that may throw. -/
inductive TResult (ε α : Type) where
  | ok (a : α)
  | thrown (e : ε)
deriving DecidableEq, Repr

/-- Settlement of the completion promise returned by an effect's `start`. -/
inductive Settlement (ε : Type) where
  | resolved
  | rejected (e : ε)
deriving DecidableEq, Repr

/-- Synchronous behaviour of a user-supplied `cancel` implementation: return
normally, throw, or re-entrantly invoke the effect's captured scoped dispatch
with a signal and then return. -/
inductive CancelBehavior (Sg ε : Type) where
  | ret
  | throwErr (e : ε)
  | dispatchScoped (sg : Sg)
deriving DecidableEq, Repr

/-- The `{ start, cancel }` initializer returned by `runEffect`.  The `start`
function's returned promise is settled by the environment (`Cmd.settle`), so
only the cancel behaviour is carried here. -/
structure EffectInitializer (Sg ε : Type) where
  cancel : CancelBehavior Sg ε
deriving DecidableEq, Repr

/-- The four user-supplied functions of a `MoorexDefinition`
(`types.ts`): `initiate`, the curried `transition`, `effectsAt` returning a
record keyed by effect key, and `runEffect` which may throw. -/
structure MoorexDefinition (St Sg Ef ε : Type) where
  initiate : St
  transition : Sg → St → St
  effectsAt : St → List (String × Ef)
  runEffect : Ef → St → String → TResult ε (EffectInitializer Sg ε)

/-- Internal bookkeeping entry of the running-effects map (`types.ts`
`RunningEffect`).  `id` is the allocation token standing for the JS object
identity used by `guardCurrentEffect`'s `!==` comparison. -/
structure RunningEffect (Sg Ef ε : Type) where
  id : Nat
  key : String
  effect : Ef
  cancel : CancelBehavior Sg ε
deriving DecidableEq, Repr

/-- The tagged event union emitted by the engine (`types.ts` `MoorexEvent`). -/
inductive MoorexEvent (St Sg Ef ε : Type) where
  | signalReceived (sg : Sg)
  | stateUpdated (st : St)
  | effectStarted (ef : Ef)
  | effectCompleted (ef : Ef)
  | effectCanceled (ef : Ef)
  | effectFailed (ef : Ef) (e : ε)
deriving DecidableEq, Repr

/-- One `emit` occurrence.  Besides the event value the record snapshots the
engine's `state` variable (what a synchronous handler calling `getState()`
would read) and the currently registered handler ids (who is invoked). -/
structure EventRecord (St Sg Ef ε : Type) where
  event : MoorexEvent St Sg Ef ε
  stateAtEmit : St
  handlersAtEmit : List Nat
deriving DecidableEq, Repr

/-- JS `Map.get` / `Record` key lookup on an association list. -/
def mapGet {α : Type} : List (String × α) → String → Option α
  | [], _ => none
  | (k', v) :: rest, k => if k' = k then some v else mapGet rest k

/-- JS `key in record` / `Map.has`. -/
def mapHasKey {α : Type} (m : List (String × α)) (k : String) : Bool :=
  (mapGet m k).isSome

/-- JS `Map.set`: replace in place when the key exists, else append. -/
def mapSet {α : Type} : List (String × α) → String → α → List (String × α)
  | [], k, v => [(k, v)]
  | (k', v') :: rest, k, v =>
      if k' = k then (k, v) :: rest else (k', v') :: mapSet rest k v

/-- JS `Map.delete`. -/
def mapDelete {α : Type} (m : List (String × α)) (k : String) :
    List (String × α) :=
  m.filter (fun kv => kv.1 ≠ k)

/-! ## Standalone SignalQueue model (`signal-queue.ts`)

`createSignalQueue` closes over a mutable `queue` array and a `draining`
flag; `drain` defers the batch callback to a microtask.  The model makes the
batch processor's possible synchronous re-scheduling explicit through a
`react` function: processing a batch schedules `react batch` back into the
queue (each through `schedule`, while `draining` is still set). `delivered`
and `scheduled` are ghost logs of the batches handed to the processor and of
every `schedule` call, in order. -/

structure QueueState (Sg : Type) where
  queue : List Sg
  draining : Bool
  delivered : List (List Sg)
  scheduled : List Sg
deriving DecidableEq, Repr

/-- Initial queue state. -/
def qInit {Sg : Type} : QueueState Sg :=
  { queue := [], draining := false, delivered := [], scheduled := [] }

/-- `schedule(signal)`: push, then `drain()` (which only flips the flag and
queues a microtask when no drain is pending). -/
def qSchedule {Sg : Type} (sg : Sg) (qs : QueueState Sg) : QueueState Sg :=
  let qs := { qs with
    queue := qs.queue ++ [sg], scheduled := qs.scheduled ++ [sg] }
  if qs.draining then qs else { qs with draining := true }

/-- Tail of the drain callback: `draining = false; if (queue.length > 0)
drain();` — the flag ends up set exactly when signals arrived during
processing, in which case a fresh drain microtask is queued. -/
def qDrainFinish {Sg : Type} (fqs : QueueState Sg) : QueueState Sg :=
  if fqs.queue.isEmpty then { fqs with draining := false }
  else { fqs with draining := true }

/-- The queued drain microtask firing.  When the flag is clear no microtask
exists, so the command is a no-op.  Otherwise: an empty queue just clears the
flag; else the whole queue is extracted atomically as one batch, the
processor runs (scheduling `react batch` re-entrantly through `qSchedule`,
while the flag is still set), then `qDrainFinish` runs. -/
def qDrainTick {Sg : Type} (react : List Sg → List Sg) (qs : QueueState Sg) :
    QueueState Sg :=
  if !qs.draining then qs
  else if qs.queue.isEmpty then { qs with draining := false }
  else
    qDrainFinish ((react qs.queue).foldl (fun acc sg => qSchedule sg acc)
      { qs with queue := [], delivered := qs.delivered ++ [qs.queue] })

/-- External interactions with a signal queue. -/
inductive QCmd (Sg : Type) where
  | schedule (sg : Sg)
  | tick
deriving DecidableEq, Repr

/-- One interaction step. -/
def qStep {Sg : Type} (react : List Sg → List Sg) :
    QCmd Sg → QueueState Sg → QueueState Sg
  | .schedule sg, qs => qSchedule sg qs
  | .tick, qs => qDrainTick react qs

/-- A whole interaction trace from the initial queue state. -/
def qRun {Sg : Type} (react : List Sg → List Sg) (cmds : List (QCmd Sg)) :
    QueueState Sg :=
  cmds.foldl (fun qs c => qStep react c qs) qInit

/-- The queue correctness invariant: delivered batches concatenated with the
pending queue are exactly the scheduled log (exactly-once, FIFO); whenever
signals are pending a drain is pending too (nothing dropped); and no drain
ever fires on an empty batch. -/
def QInv {Sg : Type} (qs : QueueState Sg) : Prop :=
  qs.delivered.flatten ++ qs.queue = qs.scheduled ∧
    (qs.queue ≠ [] → qs.draining = true) ∧
    ∀ b ∈ qs.delivered, b ≠ []

/-! ## The reconciliation engine (`create-moorex.ts` + `utils.ts`)

The engine state mirrors the closure of `createMoorex`: the `state` variable,
the `running` map, the signal queue (`queue`, `draining`), the handler set of
its event emitter, plus the allocation counter for entry identity, the
attached-but-unfired completion continuations, and ghost logs: every emitted
event (with the `state` and handler snapshot at emit time), every `runEffect`
invocation, and every `cancel` invocation (by key). -/

structure EngineState (St Sg Ef ε : Type) where
  state : St
  running : List (String × RunningEffect Sg Ef ε)
  queue : List Sg
  draining : Bool
  nextId : Nat
  pending : List (RunningEffect Sg Ef ε)
  handlers : List Nat
  events : List (EventRecord St Sg Ef ε)
  runCalls : List (String × Ef × St)
  cancelCalls : List String
deriving DecidableEq, Repr

variable {St Sg Ef ε : Type}

/-- `emit(event)`: append an event record snapshotting the current `state`
variable and handler set. -/
def emitE (es : EngineState St Sg Ef ε) (ev : MoorexEvent St Sg Ef ε) :
    EngineState St Sg Ef ε :=
  { es with events := es.events ++
      [{ event := ev, stateAtEmit := es.state, handlersAtEmit := es.handlers }] }

/-- `schedule(signal)` of the engine's signal queue: push the signal and (via
`drain`) queue a drain microtask unless one is pending. -/
def scheduleSig (sg : Sg) (es : EngineState St Sg Ef ε) :
    EngineState St Sg Ef ε :=
  if es.draining then { es with queue := es.queue ++ [sg] }
  else { es with queue := es.queue ++ [sg], draining := true }

/-- `guardCurrentEffect(running, entry)(schedule)` applied to a signal: the
wrapped callback forwards to `schedule` only when the running map's current
entry for `key` is still the captured entry (`!==` modelled by the allocation
token), else it silently no-ops. -/
def guardedScopedDispatch (key : String) (id : Nat) (sg : Sg)
    (es : EngineState St Sg Ef ε) : EngineState St Sg Ef ε :=
  match mapGet es.running key with
  | some cur => if cur.id = id then scheduleSig sg es else es
  | none => es

/-- `startEffect(key, effect, state)`:
`withEffectErrorHandling(effect, emit, () => runEffect(effect, state, key))`
emits `effect-failed` and returns when `runEffect` throws; otherwise the
entry is put into the running map, `start` is invoked (its promise settles
later through `Cmd.settle`), `effect-started` is emitted and the guarded
completion continuations are attached. -/
def startEffect (d : MoorexDefinition St Sg Ef ε) (key : String) (eff : Ef)
    (stArg : St) (es : EngineState St Sg Ef ε) : EngineState St Sg Ef ε :=
  match d.runEffect eff stArg key with
  | .thrown e =>
      emitE { es with runCalls := es.runCalls ++ [(key, eff, stArg)] }
        (.effectFailed eff e)
  | .ok ini =>
      { emitE
          { es with
            runCalls := es.runCalls ++ [(key, eff, stArg)],
            nextId := es.nextId + 1,
            running := mapSet es.running key
              { id := es.nextId, key := key, effect := eff,
                cancel := ini.cancel } }
          (.effectStarted eff) with
        pending := es.pending ++
          [{ id := es.nextId, key := key, effect := eff,
             cancel := ini.cancel }] }

/-- Body of the `cancelObsoleteEffects` loop for one snapshot entry whose key
is obsolete: delete the map entry first, then run
`withEffectErrorHandling(entry.effect, emit, entry.cancel)` (a throwing
cancel is caught and surfaced as `effect-failed`; a cancel that re-enters the
captured scoped dispatch goes through the guard), and finally —
unconditionally in the source — emit `effect-canceled`. -/
def cancelEntry (key : String) (en : RunningEffect Sg Ef ε)
    (es : EngineState St Sg Ef ε) : EngineState St Sg Ef ε :=
  emitE
    (match en.cancel with
      | .ret => { es with running := mapDelete es.running key,
                          cancelCalls := es.cancelCalls ++ [key] }
      | .throwErr e =>
          emitE { es with running := mapDelete es.running key,
                          cancelCalls := es.cancelCalls ++ [key] }
            (.effectFailed en.effect e)
      | .dispatchScoped sg =>
          guardedScopedDispatch en.key en.id sg
            { es with running := mapDelete es.running key,
                      cancelCalls := es.cancelCalls ++ [key] })
    (.effectCanceled en.effect)

/-- `cancelObsoleteEffects(currentEffects)`: iterate over a snapshot
`[...running]` of the map and cancel every entry whose key is no longer
desired. -/
def cancelObsolete (desired : List (String × Ef))
    (es : EngineState St Sg Ef ε) : EngineState St Sg Ef ε :=
  es.running.foldl
    (fun acc kv =>
      if mapHasKey desired kv.1 then acc else cancelEntry kv.1 kv.2 acc)
    es

/-- `startNewEffects(currentEffects)`: start every desired key that has no
running entry, reading the engine's `state` variable per start. -/
def startNew (d : MoorexDefinition St Sg Ef ε) (desired : List (String × Ef))
    (es : EngineState St Sg Ef ε) : EngineState St Sg Ef ε :=
  desired.foldl
    (fun acc kv =>
      if mapHasKey acc.running kv.1 then acc
      else startEffect d kv.1 kv.2 acc.state acc)
    es

/-- `reconcileEffects()`: compute the desired record once from the current
`state` variable, cancel obsolete entries, then start new ones. -/
def reconcileEffects (d : MoorexDefinition St Sg Ef ε)
    (es : EngineState St Sg Ef ε) : EngineState St Sg Ef ε :=
  startNew d (d.effectsAt es.state) (cancelObsolete (d.effectsAt es.state) es)

/-- The batch callback handed to `createSignalQueue`: fold the batch with
`signals.reduce` (emitting `signal-received` per signal while the `state`
variable is still the previous committed value), assign the folded value to
`state`, reconcile, and emit `state-updated` once. -/
def processBatch (d : MoorexDefinition St Sg Ef ε) (batch : List Sg)
    (es : EngineState St Sg Ef ε) : EngineState St Sg Ef ε :=
  emitE
    (reconcileEffects d
      { (batch.foldl (fun acc sg => emitE acc (.signalReceived sg)) es) with
        state := batch.foldl (fun s sg => d.transition sg s) es.state })
    (.stateUpdated (batch.foldl (fun s sg => d.transition sg s) es.state))

/-- Tail of the drain microtask of the engine's queue: clear the flag and
re-drain when signals arrived during processing. -/
def drainFinish (es : EngineState St Sg Ef ε) : EngineState St Sg Ef ε :=
  if es.queue.isEmpty then { es with draining := false }
  else { es with draining := true }

/-- The engine's drain microtask firing: no-op without a pending drain; an
empty queue clears the flag; otherwise the whole queue is extracted as one
batch and processed. -/
def drainTick (d : MoorexDefinition St Sg Ef ε)
    (es : EngineState St Sg Ef ε) : EngineState St Sg Ef ε :=
  if !es.draining then es
  else if es.queue.isEmpty then { es with draining := false }
  else drainFinish (processBatch d es.queue { es with queue := [] })

/-- `attachCompletionHandlers`' continuations firing when the completion
promise of the entry with allocation token `id` settles: the registration is
consumed, then the guarded `.then`/`.catch` handler checks whether the entry
is still current; if stale it no-ops entirely, otherwise it deletes the
entry and emits `effect-completed` or `effect-failed` with the rejection
reason. -/
def settleStep (id : Nat) (oc : Settlement ε)
    (es : EngineState St Sg Ef ε) : EngineState St Sg Ef ε :=
  match es.pending.find? (fun en => en.id = id) with
  | none => es
  | some en =>
      match mapGet es.running en.key with
      | some cur =>
          if cur.id = en.id then
            match oc with
            | .resolved =>
                emitE { es with
                    pending := es.pending.filter (fun e' => e'.id ≠ id),
                    running := mapDelete es.running en.key }
                  (.effectCompleted en.effect)
            | .rejected e =>
                emitE { es with
                    pending := es.pending.filter (fun e' => e'.id ≠ id),
                    running := mapDelete es.running en.key }
                  (.effectFailed en.effect e)
          else { es with pending := es.pending.filter (fun e' => e'.id ≠ id) }
      | none => { es with pending := es.pending.filter (fun e' => e'.id ≠ id) }

/-- One atomic synchronous section of the event loop, as triggered from
outside the engine: a public `dispatch`, the drain microtask, a completion
promise settling, a running effect invoking its captured scoped dispatch,
or handler (un)registration through `on`. -/
inductive Cmd (Sg ε : Type) where
  | dispatch (sg : Sg)
  | drain
  | settle (id : Nat) (oc : Settlement ε)
  | scopedDisp (key : String) (id : Nat) (sg : Sg)
  | subscribe (h : Nat)
  | unsubscribe (h : Nat)
deriving DecidableEq, Repr

/-- Interpretation of one command. -/
def step (d : MoorexDefinition St Sg Ef ε) :
    Cmd Sg ε → EngineState St Sg Ef ε → EngineState St Sg Ef ε
  | .dispatch sg, es => scheduleSig sg es
  | .drain, es => drainTick d es
  | .settle id oc, es => settleStep id oc es
  | .scopedDisp key id sg, es => guardedScopedDispatch key id sg es
  | .subscribe h, es =>
      if h ∈ es.handlers then es else { es with handlers := es.handlers ++ [h] }
  | .unsubscribe h, es => { es with handlers := es.handlers.filter (· ≠ h) }

/-- `createMoorex(definition)`: empty running map and handler set, `state`
initialised by `initiate()`, then one synchronous reconciliation pass before
the instance is returned. -/
def initEngine (d : MoorexDefinition St Sg Ef ε) : EngineState St Sg Ef ε :=
  reconcileEffects d
    { state := d.initiate, running := [], queue := [], draining := false,
      nextId := 0, pending := [], handlers := [], events := [],
      runCalls := [], cancelCalls := [] }

/-- A whole interaction trace with a freshly constructed engine. -/
def run (d : MoorexDefinition St Sg Ef ε) (cmds : List (Cmd Sg ε)) :
    EngineState St Sg Ef ε :=
  cmds.foldl (fun es c => step d c es) (initEngine d)


/-! ## Event emitter (`event-emitter.ts`)

`createEventEmitter` keeps a `Set` of handlers; `emit` iterates the live set
(`for (const handler of handlers)`), and `on` returns
`() => handlers.delete(handler)`.  Handlers are identified by ids (JS object
identity); a handler's synchronous reaction to being invoked is restricted
to the behaviours the claim is about: doing nothing or unsubscribing some
handler.  JS `Set` iteration semantics: insertion order; an element removed
before being visited is skipped; removing an already-visited element (or the
current one) does not disturb the rest of the pass. -/

/-- What a handler does, synchronously, when invoked during an emission. -/
inductive EmitAction where
  | idle
  | unsub (t : Nat)
deriving DecidableEq, Repr

/-- Live-set emission loop: `remaining` is the not-yet-visited tail of the
set, `kept` the visited elements still in the set, `log` the handlers
invoked so far.  Returns the set after the pass and the invocation log. -/
def liveEmitAux (beh : Nat → EmitAction) :
    (remaining kept log : List Nat) → List Nat × List Nat
  | [], kept, log => (kept, log)
  | h :: rest, kept, log =>
      match beh h with
      | .idle => liveEmitAux beh rest (kept ++ [h]) (log ++ [h])
      | .unsub t =>
          if t = h then liveEmitAux beh rest kept (log ++ [h])
          else liveEmitAux beh (rest.filter (· ≠ t))
            ((kept ++ [h]).filter (· ≠ t)) (log ++ [h])
termination_by remaining _ _ => remaining.length
decreasing_by
  all_goals simp only [List.length_cons]
  · exact Nat.lt_succ_of_le (Nat.le_refl _)
  · exact Nat.lt_succ_of_le (Nat.le_refl _)
  · exact Nat.lt_succ_of_le (List.length_filter_le _ _)

/-- `emit(event)` over the live handler set. -/
def liveEmit (beh : Nat → EmitAction) (hs : List Nat) : List Nat × List Nat :=
  liveEmitAux beh hs [] []

/-- The unsubscribe closure returned by `on`: `() => handlers.delete(h)`. -/
def unsubscribeFn (h : Nat) (hs : List Nat) : List Nat :=
  hs.filter (· ≠ h)


/-- Event records appended when one obsolete entry is canceled: a throwing
cancel yields `effect-failed` followed by the unconditional
`effect-canceled`; the other behaviours yield only `effect-canceled`. -/
def cancelEvents (st : St) (hs : List Nat) (en : RunningEffect Sg Ef ε) :
    List (EventRecord St Sg Ef ε) :=
  match en.cancel with
  | .ret => [⟨.effectCanceled en.effect, st, hs⟩]
  | .throwErr e =>
      [⟨.effectFailed en.effect e, st, hs⟩, ⟨.effectCanceled en.effect, st, hs⟩]
  | .dispatchScoped _ => [⟨.effectCanceled en.effect, st, hs⟩]


/-- The sub-list of a running-map snapshot whose keys are obsolete. -/
def obsoleteOf (desired : List (String × Ef))
    (l : List (String × RunningEffect Sg Ef ε)) :
    List (String × RunningEffect Sg Ef ε) :=
  l.filter (fun kv => !(mapHasKey desired kv.1))


/-- Events that the reconciliation phase can emit. -/
def isReconKind : MoorexEvent St Sg Ef ε → Bool
  | .effectStarted _ => true
  | .effectCanceled _ => true
  | .effectFailed _ _ => true
  | _ => false

/-- Recognizer for `state-updated`. -/
def isStateUpdatedKind : MoorexEvent St Sg Ef ε → Bool
  | .stateUpdated _ => true
  | _ => false

/-- Recognizer for `signal-received`. -/
def isSignalReceivedKind : MoorexEvent St Sg Ef ε → Bool
  | .signalReceived _ => true
  | _ => false

/-- Recognizer for `effect-canceled`. -/
def isCanceledKind : MoorexEvent St Sg Ef ε → Bool
  | .effectCanceled _ => true
  | _ => false

/-- Recognizer for `effect-failed`. -/
def isFailedKind : MoorexEvent St Sg Ef ε → Bool
  | .effectFailed _ _ => true
  | _ => false


/-! ## Consistency of the running-effects map -/

/-- The running map is consistent: keys are unique (it models a JS `Map`)
and every entry records the key it is stored under. -/
def GoodRunning (es : EngineState St Sg Ef ε) : Prop :=
  (es.running.map Prod.fst).Nodup ∧ ∀ kv ∈ es.running, kv.2.key = kv.1


/-! ## Concrete machines used by counterexamples and witnesses -/

/-- A machine with one initial effect whose cancel returns normally; any
signal clears the desired set. -/
def dW1 : MoorexDefinition Bool Unit Unit Unit :=
  { initiate := true,
    transition := fun _ _ => false,
    effectsAt := fun b => if b then [("alpha", ())] else [],
    runEffect := fun _ _ _ => .ok ⟨.ret⟩ }

/-- Like `dW1` but the effect's cancel throws. -/
def dC2 : MoorexDefinition Bool Unit Unit Unit :=
  { initiate := true,
    transition := fun _ _ => false,
    effectsAt := fun b => if b then [("alpha", ())] else [],
    runEffect := fun _ _ _ => .ok ⟨.throwErr ()⟩ }

/-- A counter machine whose effect appears exactly at state 1. -/
def dC7 : MoorexDefinition Nat Unit Nat Unit :=
  { initiate := 0,
    transition := fun _ n => n + 1,
    effectsAt := fun n => if n = 1 then [("alpha", 5)] else [],
    runEffect := fun _ _ _ => .ok ⟨.ret⟩ }

/-- Handler 0 unsubscribes handler 1 when invoked. -/
def behC8 : Nat → EmitAction := fun n => if n = 0 then .unsub 1 else .idle


/-- A machine whose `runEffect` always throws. -/
def dC1 : MoorexDefinition Bool Unit Unit Unit :=
  { initiate := false,
    transition := fun _ _ => true,
    effectsAt := fun b => if b then [("alpha", ())] else [],
    runEffect := fun _ _ _ => .thrown () }


theorem qInv_init {Sg : Type} : QInv (qInit : QueueState Sg) := by
  refine ⟨rfl, by intro h; simp [qInit] at h, by intro b hb; simp [qInit] at hb⟩

theorem qSchedule_inv {Sg : Type} (sg : Sg) (qs : QueueState Sg)
    (h : QInv qs) : QInv (qSchedule sg qs) := by
  obtain ⟨h1, _h2, h3⟩ := h
  unfold qSchedule
  by_cases hd : qs.draining <;>
    simp [hd, QInv, ← List.append_assoc, h1] <;> exact h3

theorem qSchedule_fold_inv {Sg : Type} (l : List Sg) (qs : QueueState Sg)
    (h : QInv qs) :
    QInv (l.foldl (fun acc sg => qSchedule sg acc) qs) := by
  induction l generalizing qs with
  | nil => exact h
  | cons sg rest ih => exact ih _ (qSchedule_inv sg qs h)

theorem qSchedule_fold_draining {Sg : Type} (l : List Sg)
    (qs : QueueState Sg) (h : qs.draining = true) :
    (l.foldl (fun acc sg => qSchedule sg acc) qs).draining = true := by
  induction l generalizing qs with
  | nil => exact h
  | cons sg rest ih =>
      refine ih _ ?_
      unfold qSchedule
      simp [h]

theorem qDrainFinish_inv {Sg : Type} (fqs : QueueState Sg)
    (h1 : fqs.delivered.flatten ++ fqs.queue = fqs.scheduled)
    (h3 : ∀ b ∈ fqs.delivered, b ≠ []) : QInv (qDrainFinish fqs) := by
  unfold qDrainFinish
  by_cases hq : fqs.queue.isEmpty
  · simp only [hq, if_true]
    refine ⟨h1, ?_, h3⟩
    intro h
    exact absurd (List.isEmpty_iff.mp hq) h
  · simp only [hq, if_false]
    exact ⟨h1, fun _ => rfl, h3⟩

theorem qDrainTick_inv {Sg : Type} (react : List Sg → List Sg)
    (qs : QueueState Sg) (h : QInv qs) : QInv (qDrainTick react qs) := by
  obtain ⟨h1, h2, h3⟩ := h
  unfold qDrainTick
  by_cases hd : qs.draining = true
  · simp only [hd, Bool.not_true, Bool.false_eq_true, if_false]
    by_cases hq : qs.queue.isEmpty
    · simp only [hq, if_true]
      refine ⟨h1, ?_, h3⟩
      intro h
      exact absurd (List.isEmpty_iff.mp hq) h
    · simp only [hq, if_false]
      have hqne : qs.queue ≠ [] := by
        simpa [List.isEmpty_iff] using hq
      have hmidinv : QInv
          { queue := [], draining := true,
            delivered := qs.delivered ++ [qs.queue],
            scheduled := qs.scheduled } := by
        refine ⟨by simp [h1], by intro h; simp at h, ?_⟩
        intro b hb
        rcases List.mem_append.mp hb with hb | hb
        · exact h3 b hb
        · simp only [List.mem_singleton] at hb
          exact hb ▸ hqne
      obtain ⟨f1, _f2, f3⟩ := qSchedule_fold_inv (react qs.queue) _ hmidinv
      exact qDrainFinish_inv _ f1 f3
  · have hd' : qs.draining = false := by
      simpa using hd
    simp only [hd', Bool.not_false, if_true]
    exact ⟨h1, h2, h3⟩

theorem qRun_inv {Sg : Type} (react : List Sg → List Sg)
    (cmds : List (QCmd Sg)) : QInv (qRun react cmds) := by
  suffices h : ∀ qs, QInv qs →
      QInv (cmds.foldl (fun qs c => qStep react c qs) qs) by
    exact h qInit qInv_init
  induction cmds with
  | nil => intro qs h; exact h
  | cons c rest ih =>
      intro qs h
      refine ih _ ?_
      cases c with
      | schedule sg => exact qSchedule_inv sg qs h
      | tick => exact qDrainTick_inv react qs h

/-! ## Association-list map lemmas -/

theorem mapGet_filter {α : Type} (p : String → Bool)
    (m : List (String × α)) (k : String) :
    mapGet (m.filter (fun kv => p kv.1)) k =
      if p k then mapGet m k else none := by
  induction m with
  | nil => simp [mapGet]
  | cons kv rest ih =>
      obtain ⟨k', v⟩ := kv
      by_cases hk : k' = k
      · subst hk
        by_cases hp : p k' <;> simp [mapGet, hp, ih]
      · by_cases hp : p k' <;> simp [mapGet, hk, hp, ih]

theorem mapGet_delete_self {α : Type} (m : List (String × α)) (k : String) :
    mapGet (mapDelete m k) k = none := by
  unfold mapDelete
  have h := mapGet_filter (fun k' => decide (k' ≠ k)) m k
  simp only [decide_not] at h ⊢
  simpa using h

theorem mapGet_delete_ne {α : Type} (m : List (String × α)) (k k' : String)
    (h : k' ≠ k) : mapGet (mapDelete m k) k' = mapGet m k' := by
  unfold mapDelete
  have hf := mapGet_filter (fun k0 => decide (k0 ≠ k)) m k'
  simp only [decide_not] at hf ⊢
  rw [hf]
  simp [h]

theorem mapGet_set_self {α : Type} (m : List (String × α)) (k : String)
    (v : α) : mapGet (mapSet m k v) k = some v := by
  induction m with
  | nil => simp [mapSet, mapGet]
  | cons kv rest ih =>
      obtain ⟨k', v'⟩ := kv
      by_cases hk : k' = k <;> simp [mapSet, mapGet, hk, ih]

theorem mapGet_set_ne {α : Type} (m : List (String × α)) (k k' : String)
    (v : α) (h : k' ≠ k) : mapGet (mapSet m k v) k' = mapGet m k' := by
  have h2 : ¬ k = k' := fun hh => h hh.symm
  induction m with
  | nil => simp [mapSet, mapGet, h2]
  | cons kv rest ih =>
      obtain ⟨k0, v0⟩ := kv
      by_cases hk : k0 = k
      · subst hk
        simp [mapSet, mapGet, h2]
      · simp [mapSet, mapGet, hk, ih]

theorem mapGet_eq_none_iff {α : Type} (m : List (String × α)) (k : String) :
    mapGet m k = none ↔ k ∉ m.map Prod.fst := by
  induction m with
  | nil => simp [mapGet]
  | cons kv rest ih =>
      obtain ⟨k', v⟩ := kv
      by_cases hk : k' = k
      · subst hk
        simp [mapGet]
      · simp [mapGet, hk, ih, Ne.symm hk]

theorem mapSet_absent {α : Type} (m : List (String × α)) (k : String) (v : α)
    (h : mapGet m k = none) : mapSet m k v = m ++ [(k, v)] := by
  induction m with
  | nil => simp [mapSet]
  | cons kv rest ih =>
      obtain ⟨k', v'⟩ := kv
      by_cases hk : k' = k
      · simp [mapGet, hk] at h
      · simp only [mapGet, hk, if_false] at h
        simp [mapSet, hk, ih h]

/-! ## Characterization lemmas for the engine operations -/

theorem cancelEntry_spec (key : String) (en : RunningEffect Sg Ef ε)
    (es : EngineState St Sg Ef ε) (hk : en.key = key) :
    cancelEntry key en es =
      { es with running := mapDelete es.running key,
                cancelCalls := es.cancelCalls ++ [key],
                events := es.events ++ cancelEvents es.state es.handlers en } := by
  cases hc : en.cancel with
  | ret => simp [cancelEntry, cancelEvents, emitE, hc]
  | throwErr e => simp [cancelEntry, cancelEvents, emitE, hc]
  | dispatchScoped sg =>
      simp [cancelEntry, cancelEvents, emitE, hc, guardedScopedDispatch, hk,
        mapGet_delete_self]

theorem cancelObsolete_fold (desired : List (String × Ef))
    (l : List (String × RunningEffect Sg Ef ε))
    (es : EngineState St Sg Ef ε) (hcoh : ∀ kv ∈ l, kv.2.key = kv.1) :
    l.foldl
      (fun acc kv =>
        if mapHasKey desired kv.1 then acc else cancelEntry kv.1 kv.2 acc)
      es =
    { es with
      running := (obsoleteOf desired l).foldl
        (fun m kv => mapDelete m kv.1) es.running,
      cancelCalls := es.cancelCalls ++ (obsoleteOf desired l).map Prod.fst,
      events := es.events ++ ((obsoleteOf desired l).map
        (fun kv => cancelEvents es.state es.handlers kv.2)).flatten } := by
  induction l generalizing es with
  | nil => simp [obsoleteOf]
  | cons kv l' ih =>
      by_cases hd : mapHasKey desired kv.1
      · simpa [obsoleteOf, hd] using ih es (fun kv' h' => hcoh kv' (by simp [h']))
      · have hkv : kv.2.key = kv.1 := hcoh kv (by simp)
        have hrw := cancelEntry_spec kv.1 kv.2 es hkv
        simp only [List.foldl_cons, hd, if_false, Bool.false_eq_true, hrw]
        rw [ih _ (fun kv' h' => hcoh kv' (by simp [h']))]
        simp [obsoleteOf, hd, List.append_assoc]

theorem cancelObsolete_spec (desired : List (String × Ef))
    (es : EngineState St Sg Ef ε) (hcoh : ∀ kv ∈ es.running, kv.2.key = kv.1) :
    cancelObsolete desired es =
    { es with
      running := (obsoleteOf desired es.running).foldl
        (fun m kv => mapDelete m kv.1) es.running,
      cancelCalls := es.cancelCalls ++
        (obsoleteOf desired es.running).map Prod.fst,
      events := es.events ++ ((obsoleteOf desired es.running).map
        (fun kv => cancelEvents es.state es.handlers kv.2)).flatten } :=
  cancelObsolete_fold desired es.running es hcoh

theorem startEffect_thrown (d : MoorexDefinition St Sg Ef ε) (key : String)
    (eff : Ef) (stArg : St) (es : EngineState St Sg Ef ε) (e : ε)
    (h : d.runEffect eff stArg key = .thrown e) :
    startEffect d key eff stArg es =
      { es with
        runCalls := es.runCalls ++ [(key, eff, stArg)],
        events := es.events ++ [⟨.effectFailed eff e, es.state, es.handlers⟩] } := by
  simp [startEffect, emitE, h]

theorem startEffect_ok (d : MoorexDefinition St Sg Ef ε) (key : String)
    (eff : Ef) (stArg : St) (es : EngineState St Sg Ef ε)
    (ini : EffectInitializer Sg ε)
    (h : d.runEffect eff stArg key = .ok ini) :
    startEffect d key eff stArg es =
      { es with
        runCalls := es.runCalls ++ [(key, eff, stArg)],
        nextId := es.nextId + 1,
        running := mapSet es.running key
          { id := es.nextId, key := key, effect := eff, cancel := ini.cancel },
        events := es.events ++ [⟨.effectStarted eff, es.state, es.handlers⟩],
        pending := es.pending ++
          [{ id := es.nextId, key := key, effect := eff,
             cancel := ini.cancel }] } := by
  simp [startEffect, emitE, h]

/-- The `signals.reduce` pass emits one `signal-received` record per signal,
in order, each snapshotting the still-uncommitted previous state. -/
theorem sigFold_spec (batch : List Sg) (es : EngineState St Sg Ef ε) :
    batch.foldl (fun acc sg => emitE acc (.signalReceived sg)) es =
      { es with events := es.events ++
          batch.map (fun sg => ⟨.signalReceived sg, es.state, es.handlers⟩) } := by
  induction batch generalizing es with
  | nil => simp
  | cons sg rest ih =>
      simp only [List.foldl_cons]
      rw [ih]
      simp [emitE]

theorem startEffect_fields (d : MoorexDefinition St Sg Ef ε) (key : String)
    (eff : Ef) (stArg : St) (es : EngineState St Sg Ef ε) :
    (startEffect d key eff stArg es).state = es.state ∧
    (startEffect d key eff stArg es).queue = es.queue ∧
    (startEffect d key eff stArg es).draining = es.draining ∧
    (startEffect d key eff stArg es).handlers = es.handlers ∧
    (startEffect d key eff stArg es).cancelCalls = es.cancelCalls ∧
    ∃ r, (startEffect d key eff stArg es).events = es.events ++ [r] ∧
      isReconKind r.event = true ∧ r.stateAtEmit = es.state ∧
      r.handlersAtEmit = es.handlers := by
  cases h : d.runEffect eff stArg key with
  | thrown e =>
      rw [startEffect_thrown d key eff stArg es e h]
      exact ⟨rfl, rfl, rfl, rfl, rfl,
        ⟨.effectFailed eff e, es.state, es.handlers⟩, rfl, rfl, rfl, rfl⟩
  | ok ini =>
      rw [startEffect_ok d key eff stArg es ini h]
      exact ⟨rfl, rfl, rfl, rfl, rfl,
        ⟨.effectStarted eff, es.state, es.handlers⟩, rfl, rfl, rfl, rfl⟩

theorem startNew_spec (d : MoorexDefinition St Sg Ef ε)
    (de : List (String × Ef)) (es : EngineState St Sg Ef ε) :
    (startNew d de es).state = es.state ∧
    (startNew d de es).queue = es.queue ∧
    (startNew d de es).draining = es.draining ∧
    (startNew d de es).handlers = es.handlers ∧
    (startNew d de es).cancelCalls = es.cancelCalls ∧
    ∃ t, (startNew d de es).events = es.events ++ t ∧
      ∀ r ∈ t, isReconKind r.event = true ∧ r.stateAtEmit = es.state ∧
        r.handlersAtEmit = es.handlers := by
  induction de generalizing es with
  | nil => exact ⟨rfl, rfl, rfl, rfl, rfl, [], by simp [startNew]⟩
  | cons kv de' ih =>
      by_cases hk : mapHasKey es.running kv.1
      · have := ih es
        simpa [startNew, hk] using this
      · have hstep := startEffect_fields d kv.1 kv.2 es.state es
        obtain ⟨h1, h2, h3, h4, h5, r, hev, hr⟩ := hstep
        have hrec := ih (startEffect d kv.1 kv.2 es.state es)
        obtain ⟨g1, g2, g3, g4, g5, t, gev, gt⟩ := hrec
        have hfold : startNew d (kv :: de') es =
            startNew d de' (startEffect d kv.1 kv.2 es.state es) := by
          simp [startNew, hk]
        rw [hfold]
        refine ⟨g1.trans h1, g2.trans h2, g3.trans h3, g4.trans h4,
          g5.trans h5, r :: t, ?_, ?_⟩
        · rw [gev, hev]
          simp
        · intro r' hr'
          rcases List.mem_cons.mp hr' with hr' | hr'
          · subst hr'
            exact ⟨hr.1, hr.2.1, hr.2.2⟩
          · have := gt r' hr'
            exact ⟨this.1, this.2.1.trans h1, this.2.2.trans h4⟩

theorem startEffect_running_preserve (d : MoorexDefinition St Sg Ef ε)
    (k : String) (eff : Ef) (stArg : St) (es : EngineState St Sg Ef ε)
    (key : String) (v : RunningEffect Sg Ef ε)
    (h : mapGet es.running key = some v) (hne : key ≠ k) :
    mapGet (startEffect d k eff stArg es).running key = some v := by
  cases hre : d.runEffect eff stArg k with
  | thrown e =>
      rw [startEffect_thrown d k eff stArg es e hre]
      exact h
  | ok ini =>
      rw [startEffect_ok d k eff stArg es ini hre]
      show mapGet (mapSet es.running k _) key = some v
      rw [mapGet_set_ne _ _ _ _ hne]
      exact h

theorem startEffect_runCalls (d : MoorexDefinition St Sg Ef ε) (k : String)
    (eff : Ef) (stArg : St) (es : EngineState St Sg Ef ε) :
    (startEffect d k eff stArg es).runCalls =
      es.runCalls ++ [(k, eff, stArg)] := by
  cases hre : d.runEffect eff stArg k with
  | thrown e => rw [startEffect_thrown d k eff stArg es e hre]
  | ok ini => rw [startEffect_ok d k eff stArg es ini hre]

theorem startNew_preserve (d : MoorexDefinition St Sg Ef ε)
    (de : List (String × Ef)) (es : EngineState St Sg Ef ε) (key : String)
    (v : RunningEffect Sg Ef ε) (h : mapGet es.running key = some v) :
    mapGet (startNew d de es).running key = some v ∧
    ∀ c ∈ (startNew d de es).runCalls, c ∈ es.runCalls ∨ c.1 ≠ key := by
  induction de generalizing es with
  | nil =>
      refine ⟨by simpa [startNew] using h, ?_⟩
      intro c hc
      exact Or.inl (by simpa [startNew] using hc)
  | cons kv de' ih =>
      by_cases hk : mapHasKey es.running kv.1
      · have := ih es h
        simpa [startNew, hk] using this
      · have hne : kv.1 ≠ key := by
          intro hkey
          subst hkey
          simp [mapHasKey, h] at hk
        have hfold : startNew d (kv :: de') es =
            startNew d de' (startEffect d kv.1 kv.2 es.state es) := by
          simp [startNew, hk]
        rw [hfold]
        have hstep := startEffect_running_preserve d kv.1 kv.2 es.state es key
          v h (fun hkk => hne hkk.symm)
        have := ih (startEffect d kv.1 kv.2 es.state es) hstep
        refine ⟨this.1, ?_⟩
        intro c hc
        rcases this.2 c hc with hc' | hc'
        · rw [startEffect_runCalls] at hc'
          rcases List.mem_append.mp hc' with hc'' | hc''
          · exact Or.inl hc''
          · refine Or.inr ?_
            simp only [List.mem_singleton] at hc''
            rw [hc'']
            exact hne
        · exact Or.inr hc'

theorem mapSet_keys_mem {α : Type} (m : List (String × α)) (k a : String)
    (v : α) :
    a ∈ (mapSet m k v).map Prod.fst ↔ a ∈ m.map Prod.fst ∨ a = k := by
  induction m with
  | nil => simp [mapSet]
  | cons kv rest ih =>
      obtain ⟨k0, v0⟩ := kv
      by_cases hk : k0 = k
      · subst hk
        simp only [mapSet, if_true, List.map_cons, List.mem_cons]
        tauto
      · simp only [mapSet, hk, if_false, List.map_cons, List.mem_cons, ih]
        tauto

theorem goodRunning_mapSet (m : List (String × RunningEffect Sg Ef ε))
    (k : String) (v : RunningEffect Sg Ef ε)
    (hnd : (m.map Prod.fst).Nodup) (hcoh : ∀ kv ∈ m, kv.2.key = kv.1)
    (hv : v.key = k) :
    ((mapSet m k v).map Prod.fst).Nodup ∧
      ∀ kv ∈ mapSet m k v, kv.2.key = kv.1 := by
  induction m with
  | nil => simp [mapSet, hv]
  | cons kv rest ih =>
      obtain ⟨k0, v0⟩ := kv
      rw [List.map_cons, List.nodup_cons] at hnd
      have hcoh0 : v0.key = k0 := hcoh (k0, v0) (by simp)
      have hcohr : ∀ kv ∈ rest, kv.2.key = kv.1 := fun kv h =>
        hcoh kv (by simp [h])
      by_cases hk : k0 = k
      · subst hk
        refine ⟨?_, ?_⟩
        · simp only [mapSet, if_true, List.map_cons, List.nodup_cons]
          exact ⟨hnd.1, hnd.2⟩
        · intro kv h
          simp only [mapSet, if_true, List.mem_cons] at h
          rcases h with h | h
          · rw [h]
            exact hv
          · exact hcohr kv h
      · obtain ⟨ihnd, ihcoh⟩ := ih hnd.2 hcohr
        refine ⟨?_, ?_⟩
        · simp only [mapSet, hk, if_false, List.map_cons, List.nodup_cons]
          refine ⟨?_, ihnd⟩
          intro hmem
          rcases (mapSet_keys_mem rest k k0 v).mp hmem with h | h
          · exact hnd.1 h
          · exact hk h
        · intro kv h
          simp only [mapSet, hk, if_false, List.mem_cons] at h
          rcases h with h | h
          · rw [h]
            exact hcoh0
          · exact ihcoh kv h

theorem goodRunning_filter (m : List (String × RunningEffect Sg Ef ε))
    (p : String × RunningEffect Sg Ef ε → Bool)
    (hnd : (m.map Prod.fst).Nodup) (hcoh : ∀ kv ∈ m, kv.2.key = kv.1) :
    (((m.filter p).map Prod.fst).Nodup) ∧
      ∀ kv ∈ m.filter p, kv.2.key = kv.1 := by
  constructor
  · exact hnd.sublist ((List.filter_sublist m).map Prod.fst)
  · intro kv h
    exact hcoh kv (List.mem_of_mem_filter h)

theorem goodRunning_foldDelete (obs : List (String × RunningEffect Sg Ef ε))
    (m : List (String × RunningEffect Sg Ef ε))
    (hnd : (m.map Prod.fst).Nodup) (hcoh : ∀ kv ∈ m, kv.2.key = kv.1) :
    (((obs.foldl (fun m' kv => mapDelete m' kv.1) m).map Prod.fst).Nodup) ∧
      ∀ kv ∈ obs.foldl (fun m' kv => mapDelete m' kv.1) m,
        kv.2.key = kv.1 := by
  induction obs generalizing m with
  | nil => exact ⟨hnd, hcoh⟩
  | cons kv obs' ih =>
      have := goodRunning_filter m (fun kv' => kv'.1 ≠ kv.1) hnd hcoh
      exact ih (mapDelete m kv.1) this.1 this.2

theorem startEffect_good (d : MoorexDefinition St Sg Ef ε) (key : String)
    (eff : Ef) (stArg : St) (es : EngineState St Sg Ef ε)
    (h : GoodRunning es) : GoodRunning (startEffect d key eff stArg es) := by
  cases hre : d.runEffect eff stArg key with
  | thrown e =>
      rw [startEffect_thrown d key eff stArg es e hre]
      exact h
  | ok ini =>
      rw [startEffect_ok d key eff stArg es ini hre]
      exact goodRunning_mapSet es.running key _ h.1 h.2 rfl

theorem startNew_good (d : MoorexDefinition St Sg Ef ε)
    (de : List (String × Ef)) (es : EngineState St Sg Ef ε)
    (h : GoodRunning es) : GoodRunning (startNew d de es) := by
  induction de generalizing es with
  | nil => simpa [startNew] using h
  | cons kv de' ih =>
      by_cases hk : mapHasKey es.running kv.1
      · have := ih es h
        simpa [startNew, hk] using this
      · have hfold : startNew d (kv :: de') es =
            startNew d de' (startEffect d kv.1 kv.2 es.state es) := by
          simp [startNew, hk]
        rw [hfold]
        exact ih _ (startEffect_good d kv.1 kv.2 es.state es h)

theorem cancelObsolete_good (desired : List (String × Ef))
    (es : EngineState St Sg Ef ε) (h : GoodRunning es) :
    GoodRunning (cancelObsolete desired es) := by
  rw [cancelObsolete_spec desired es h.2]
  exact goodRunning_foldDelete _ es.running h.1 h.2

theorem reconcileEffects_good (d : MoorexDefinition St Sg Ef ε)
    (es : EngineState St Sg Ef ε) (h : GoodRunning es) :
    GoodRunning (reconcileEffects d es) :=
  startNew_good d _ _ (cancelObsolete_good _ es h)

theorem settleStep_good (id : Nat) (oc : Settlement ε)
    (es : EngineState St Sg Ef ε) (h : GoodRunning es) :
    GoodRunning (settleStep id oc es) := by
  unfold settleStep
  split
  · exact h
  · rename_i en hfind
    split
    · rename_i cur hget
      split
      · cases oc with
        | resolved =>
            have := goodRunning_filter es.running
              (fun kv => kv.1 ≠ en.key) h.1 h.2
            exact ⟨this.1, this.2⟩
        | rejected e =>
            have := goodRunning_filter es.running
              (fun kv => kv.1 ≠ en.key) h.1 h.2
            exact ⟨this.1, this.2⟩
      · exact ⟨h.1, h.2⟩
    · exact ⟨h.1, h.2⟩

theorem processBatch_good (d : MoorexDefinition St Sg Ef ε) (batch : List Sg)
    (es : EngineState St Sg Ef ε) (h : GoodRunning es) :
    GoodRunning (processBatch d batch es) := by
  unfold processBatch
  apply reconcileEffects_good
  rw [sigFold_spec]
  exact h

theorem step_good (d : MoorexDefinition St Sg Ef ε) (c : Cmd Sg ε)
    (es : EngineState St Sg Ef ε) (h : GoodRunning es) :
    GoodRunning (step d c es) := by
  cases c with
  | dispatch sg =>
      show GoodRunning (scheduleSig sg es)
      unfold scheduleSig
      split
      · exact ⟨h.1, h.2⟩
      · exact ⟨h.1, h.2⟩
  | drain =>
      show GoodRunning (drainTick d es)
      unfold drainTick
      split
      · exact h
      · split
        · exact ⟨h.1, h.2⟩
        · have hg : GoodRunning
              (processBatch d es.queue { es with queue := [] }) :=
            processBatch_good d es.queue { es with queue := [] } ⟨h.1, h.2⟩
          unfold drainFinish
          split
          · exact ⟨hg.1, hg.2⟩
          · exact ⟨hg.1, hg.2⟩
  | settle id oc => exact settleStep_good id oc es h
  | scopedDisp key id sg =>
      show GoodRunning (guardedScopedDispatch key id sg es)
      unfold guardedScopedDispatch
      split
      · split
        · unfold scheduleSig
          split
          · exact ⟨h.1, h.2⟩
          · exact ⟨h.1, h.2⟩
        · exact h
      · exact h
  | subscribe hh =>
      show GoodRunning
        (if hh ∈ es.handlers then es
         else { es with handlers := es.handlers ++ [hh] })
      split
      · exact h
      · exact ⟨h.1, h.2⟩
  | unsubscribe hh => exact ⟨h.1, h.2⟩

theorem initEngine_good (d : MoorexDefinition St Sg Ef ε) :
    GoodRunning (initEngine d) := by
  unfold initEngine
  apply reconcileEffects_good
  exact ⟨by simp, by simp⟩

theorem run_good (d : MoorexDefinition St Sg Ef ε) (cmds : List (Cmd Sg ε)) :
    GoodRunning (run d cmds) := by
  suffices hstep : ∀ es, GoodRunning es →
      GoodRunning (cmds.foldl (fun es c => step d c es) es) by
    exact hstep (initEngine d) (initEngine_good d)
  induction cmds with
  | nil => intro es h; exact h
  | cons c rest ih =>
      intro es h
      exact ih (step d c es) (step_good d c es h)

/-! ## Event-log structure lemmas -/

theorem cancelEvents_shape (st : St) (hs : List Nat)
    (en : RunningEffect Sg Ef ε) :
    ∀ r ∈ cancelEvents st hs en, isReconKind r.event = true ∧
      r.stateAtEmit = st ∧ r.handlersAtEmit = hs := by
  intro r hr
  cases hc : en.cancel with
  | ret =>
      simp only [cancelEvents, hc, List.mem_singleton] at hr
      subst hr
      exact ⟨rfl, rfl, rfl⟩
  | throwErr e =>
      simp only [cancelEvents, hc, List.mem_cons, List.mem_singleton,
        List.not_mem_nil, or_false] at hr
      rcases hr with hr | hr <;> (subst hr; exact ⟨rfl, rfl, rfl⟩)
  | dispatchScoped sg =>
      simp only [cancelEvents, hc, List.mem_singleton] at hr
      subst hr
      exact ⟨rfl, rfl, rfl⟩

theorem scheduleSig_fields (sg : Sg) (es : EngineState St Sg Ef ε) :
    scheduleSig sg es =
      { es with queue := es.queue ++ [sg], draining := true } := by
  unfold scheduleSig
  split
  · rename_i hd
    simp [hd]
  · rfl

theorem cancelEntry_events_extend (key : String) (en : RunningEffect Sg Ef ε)
    (es : EngineState St Sg Ef ε) :
    ∃ t, (cancelEntry key en es).events = es.events ++ t := by
  unfold cancelEntry
  split
  · refine ⟨[⟨.effectCanceled en.effect, es.state, es.handlers⟩], ?_⟩
    simp [emitE]
  · rename_i e heq
    refine ⟨[⟨.effectFailed en.effect e, es.state, es.handlers⟩,
      ⟨.effectCanceled en.effect, es.state, es.handlers⟩], ?_⟩
    simp [emitE]
  · rename_i sg heq
    unfold guardedScopedDispatch
    split
    · split
      · rw [scheduleSig_fields]
        refine ⟨[⟨.effectCanceled en.effect, es.state, es.handlers⟩], ?_⟩
        simp [emitE]
      · refine ⟨[⟨.effectCanceled en.effect, es.state, es.handlers⟩], ?_⟩
        simp [emitE]
    · refine ⟨[⟨.effectCanceled en.effect, es.state, es.handlers⟩], ?_⟩
      simp [emitE]

theorem cancelObsolete_events_extend (desired : List (String × Ef))
    (es : EngineState St Sg Ef ε) :
    ∃ t, (cancelObsolete desired es).events = es.events ++ t := by
  unfold cancelObsolete
  generalize es.running = l
  induction l generalizing es with
  | nil => exact ⟨[], by simp⟩
  | cons kv l' ih =>
      simp only [List.foldl_cons]
      by_cases hk : mapHasKey desired kv.1
      · simp only [hk, if_true]
        exact ih es
      · simp only [hk, Bool.false_eq_true, if_false]
        obtain ⟨t1, h1⟩ := cancelEntry_events_extend kv.1 kv.2 es
        obtain ⟨t2, h2⟩ := ih (cancelEntry kv.1 kv.2 es)
        exact ⟨t1 ++ t2, by rw [h2, h1, List.append_assoc]⟩

theorem reconcileEffects_events_extend (d : MoorexDefinition St Sg Ef ε)
    (es : EngineState St Sg Ef ε) :
    ∃ t, (reconcileEffects d es).events = es.events ++ t := by
  unfold reconcileEffects
  obtain ⟨t1, h1⟩ := cancelObsolete_events_extend (d.effectsAt es.state) es
  obtain ⟨_, _, _, _, _, t2, h2, _⟩ := startNew_spec d (d.effectsAt es.state)
    (cancelObsolete (d.effectsAt es.state) es)
  exact ⟨t1 ++ t2, by rw [h2, h1, List.append_assoc]⟩

/-- Normal form of the batch callback: fold events appended, state set to the
fold of the whole batch, then reconciliation and the single `state-updated`
emission. -/
theorem processBatch_eq (d : MoorexDefinition St Sg Ef ε) (batch : List Sg)
    (es : EngineState St Sg Ef ε) :
    processBatch d batch es =
      emitE
        (reconcileEffects d
          { es with
            state := batch.foldl (fun s sg => d.transition sg s) es.state,
            events := es.events ++ batch.map
              (fun sg => ⟨.signalReceived sg, es.state, es.handlers⟩) })
        (.stateUpdated (batch.foldl (fun s sg => d.transition sg s) es.state)) := by
  unfold processBatch
  rw [sigFold_spec]

theorem processBatch_events_extend (d : MoorexDefinition St Sg Ef ε)
    (batch : List Sg) (es : EngineState St Sg Ef ε) :
    ∃ t, (processBatch d batch es).events = es.events ++
      batch.map (fun sg => ⟨.signalReceived sg, es.state, es.handlers⟩) ++ t := by
  rw [processBatch_eq]
  set X : EngineState St Sg Ef ε := { es with
      state := batch.foldl (fun s sg => d.transition sg s) es.state,
      events := es.events ++
        batch.map (fun sg => ⟨.signalReceived sg, es.state, es.handlers⟩) }
    with hX
  obtain ⟨t1, h1⟩ := reconcileEffects_events_extend d X
  refine ⟨t1 ++
    [⟨.stateUpdated (batch.foldl (fun s sg => d.transition sg s) es.state),
      (reconcileEffects d X).state, (reconcileEffects d X).handlers⟩], ?_⟩
  simp only [emitE, h1, hX]
  simp [List.append_assoc]

/-! ## Event-log parametricity: the engine operations read and write every
field except `events` independently of the event log, which they only
append to. -/

theorem startEffect_shift (d : MoorexDefinition St Sg Ef ε) (k : String)
    (eff : Ef) (stArg : St) (es : EngineState St Sg Ef ε) :
    ∃ t, (startEffect d k eff stArg es).events = es.events ++ t ∧
      ∀ E, startEffect d k eff stArg { es with events := E } =
        { startEffect d k eff stArg es with events := E ++ t } := by
  cases hre : d.runEffect eff stArg k with
  | thrown e =>
      refine ⟨[⟨.effectFailed eff e, es.state, es.handlers⟩], ?_, ?_⟩
      · rw [startEffect_thrown d k eff stArg es e hre]
      · intro E
        rw [startEffect_thrown d k eff stArg { es with events := E } e hre,
          startEffect_thrown d k eff stArg es e hre]
  | ok ini =>
      refine ⟨[⟨.effectStarted eff, es.state, es.handlers⟩], ?_, ?_⟩
      · rw [startEffect_ok d k eff stArg es ini hre]
      · intro E
        rw [startEffect_ok d k eff stArg { es with events := E } ini hre,
          startEffect_ok d k eff stArg es ini hre]

theorem startNew_shift (d : MoorexDefinition St Sg Ef ε)
    (de : List (String × Ef)) (es : EngineState St Sg Ef ε) :
    ∃ t, (startNew d de es).events = es.events ++ t ∧
      ∀ E, startNew d de { es with events := E } =
        { startNew d de es with events := E ++ t } := by
  induction de generalizing es with
  | nil =>
      refine ⟨[], by simp [startNew], ?_⟩
      intro E
      simp [startNew]
  | cons kv de' ih =>
      by_cases hk : mapHasKey es.running kv.1
      · obtain ⟨t, h1, h2⟩ := ih es
        refine ⟨t, ?_, ?_⟩
        · simpa [startNew, hk] using h1
        · intro E
          have hl : startNew d (kv :: de') { es with events := E } =
              startNew d de' { es with events := E } := by
            simp [startNew, hk]
          have hr : startNew d (kv :: de') es = startNew d de' es := by
            simp [startNew, hk]
          rw [hl, h2 E, hr]
      · obtain ⟨t1, g1, g2⟩ := startEffect_shift d kv.1 kv.2 es.state es
        obtain ⟨t2, f1, f2⟩ := ih (startEffect d kv.1 kv.2 es.state es)
        have hr : startNew d (kv :: de') es =
            startNew d de' (startEffect d kv.1 kv.2 es.state es) := by
          simp [startNew, hk]
        refine ⟨t1 ++ t2, ?_, ?_⟩
        · rw [hr, f1, g1, List.append_assoc]
        · intro E
          have hl : startNew d (kv :: de') { es with events := E } =
              startNew d de'
                (startEffect d kv.1 kv.2 es.state { es with events := E }) := by
            simp [startNew, hk]
          rw [hl, g2 E, f2 (E ++ t1), hr, List.append_assoc]

theorem cancelObsolete_shift (desired : List (String × Ef))
    (es : EngineState St Sg Ef ε)
    (hcoh : ∀ kv ∈ es.running, kv.2.key = kv.1) :
    ∀ E, cancelObsolete desired { es with events := E } =
      { cancelObsolete desired es with events := E ++
          ((obsoleteOf desired es.running).map
            (fun kv => cancelEvents es.state es.handlers kv.2)).flatten } := by
  intro E
  have h1 := cancelObsolete_spec desired { es with events := E }
    (by simpa using hcoh)
  have h2 := cancelObsolete_spec desired es hcoh
  rw [h1, h2]

/-- Master lemma for one reconciliation pass: it appends a block of
reconciliation-kind event records, each snapshotting the pass's `state` and
handler set; it leaves `state`, `queue`, `draining` and `handlers` untouched;
and the whole pass is insensitive to the prior contents of the event log. -/
theorem recon_master (d : MoorexDefinition St Sg Ef ε)
    (es : EngineState St Sg Ef ε)
    (hcoh : ∀ kv ∈ es.running, kv.2.key = kv.1) :
    ∃ t, (reconcileEffects d es).events = es.events ++ t ∧
      (∀ r ∈ t, isReconKind r.event = true ∧ r.stateAtEmit = es.state ∧
        r.handlersAtEmit = es.handlers) ∧
      (∀ E, reconcileEffects d { es with events := E } =
        { reconcileEffects d es with events := E ++ t }) ∧
      (reconcileEffects d es).state = es.state ∧
      (reconcileEffects d es).queue = es.queue ∧
      (reconcileEffects d es).draining = es.draining ∧
      (reconcileEffects d es).handlers = es.handlers := by
  have hC := cancelObsolete_spec (d.effectsAt es.state) es hcoh
  obtain ⟨ts, hs1, hs2⟩ :=
    startNew_shift d (d.effectsAt es.state)
      (cancelObsolete (d.effectsAt es.state) es)
  obtain ⟨q1, q2, q3, q4, q5, ts', hts', hshape⟩ :=
    startNew_spec d (d.effectsAt es.state)
      (cancelObsolete (d.effectsAt es.state) es)
  have htseq : ts' = ts := by
    have := hts'.symm.trans hs1
    exact List.append_cancel_left this
  subst htseq
  set tc := ((obsoleteOf (d.effectsAt es.state) es.running).map
    (fun kv => cancelEvents es.state es.handlers kv.2)).flatten with htc
  have hCev : (cancelObsolete (d.effectsAt es.state) es).events =
      es.events ++ tc := by
    rw [hC]
  have hCst : (cancelObsolete (d.effectsAt es.state) es).state = es.state := by
    rw [hC]
  have hChd : (cancelObsolete (d.effectsAt es.state) es).handlers =
      es.handlers := by
    rw [hC]
  refine ⟨tc ++ ts', ?_, ?_, ?_, ?_, ?_, ?_, ?_⟩
  · show (startNew d (d.effectsAt es.state)
        (cancelObsolete (d.effectsAt es.state) es)).events = _
    rw [hts', hCev, List.append_assoc]
  · intro r hr
    rcases List.mem_append.mp hr with hr | hr
    · rw [htc] at hr
      rcases List.mem_flatten.mp hr with ⟨l, hl, hrl⟩
      rcases List.mem_map.mp hl with ⟨kv, _hkv, hlkv⟩
      exact cancelEvents_shape es.state es.handlers kv.2 r (hlkv ▸ hrl)
    · have := hshape r hr
      exact ⟨this.1, this.2.1.trans hCst, this.2.2.trans hChd⟩
  · intro E
    show startNew d (d.effectsAt es.state)
        (cancelObsolete (d.effectsAt es.state) { es with events := E }) = _
    rw [cancelObsolete_shift (d.effectsAt es.state) es hcoh E]
    rw [← htc]
    have := hs2 (E ++ tc)
    rw [this]
    show _ = { startNew d (d.effectsAt es.state)
        (cancelObsolete (d.effectsAt es.state) es) with
      events := E ++ (tc ++ ts') }
    rw [List.append_assoc]
  · show (startNew d (d.effectsAt es.state)
        (cancelObsolete (d.effectsAt es.state) es)).state = _
    rw [q1, hCst]
  · show (startNew d (d.effectsAt es.state)
        (cancelObsolete (d.effectsAt es.state) es)).queue = _
    rw [q2, hC]
  · show (startNew d (d.effectsAt es.state)
        (cancelObsolete (d.effectsAt es.state) es)).draining = _
    rw [q3, hC]
  · show (startNew d (d.effectsAt es.state)
        (cancelObsolete (d.effectsAt es.state) es)).handlers = _
    rw [q4, hChd]

/-- Master lemma for one batch: the event log grows by exactly the
`signal-received` block (snapshotting the previous committed state), then a
block of reconciliation events (snapshotting the folded state), then the
single `state-updated` record; the committed state becomes the fold of the
whole batch; queue, draining flag and handlers are untouched. -/
theorem processBatch_master (d : MoorexDefinition St Sg Ef ε)
    (batch : List Sg) (es : EngineState St Sg Ef ε)
    (hcoh : ∀ kv ∈ es.running, kv.2.key = kv.1) :
    ∃ t, (processBatch d batch es).events = es.events ++
        batch.map (fun sg => ⟨.signalReceived sg, es.state, es.handlers⟩) ++
        t ++
        [⟨.stateUpdated (batch.foldl (fun s sg => d.transition sg s) es.state),
          batch.foldl (fun s sg => d.transition sg s) es.state,
          es.handlers⟩] ∧
      (∀ r ∈ t, isReconKind r.event = true ∧
        r.stateAtEmit = batch.foldl (fun s sg => d.transition sg s) es.state ∧
        r.handlersAtEmit = es.handlers) ∧
      (processBatch d batch es).state =
        batch.foldl (fun s sg => d.transition sg s) es.state ∧
      (processBatch d batch es).queue = es.queue ∧
      (processBatch d batch es).draining = es.draining ∧
      (processBatch d batch es).handlers = es.handlers := by
  obtain ⟨t, h1, h2, h3, h4, h5, h6, h7⟩ := recon_master d
    { es with state := batch.foldl (fun s sg => d.transition sg s) es.state }
    (by simpa using hcoh)
  have hY : reconcileEffects d
      { es with
        state := batch.foldl (fun s sg => d.transition sg s) es.state,
        events := es.events ++ batch.map
          (fun sg => ⟨.signalReceived sg, es.state, es.handlers⟩) } =
      { reconcileEffects d
          { es with
            state := batch.foldl (fun s sg => d.transition sg s) es.state }
        with
        events := (es.events ++ batch.map
          (fun sg => ⟨.signalReceived sg, es.state, es.handlers⟩)) ++ t } :=
    h3 (es.events ++ batch.map
      (fun sg => ⟨.signalReceived sg, es.state, es.handlers⟩))
  refine ⟨t, ?_, ?_, ?_, ?_, ?_, ?_⟩
  · rw [processBatch_eq, hY]
    simp only [emitE]
    rw [h4, h7]
  · intro r hr
    have := h2 r hr
    refine ⟨this.1, ?_, ?_⟩
    · simpa using this.2.1
    · simpa using this.2.2
  · rw [processBatch_eq, hY]
    simp only [emitE]
    simpa using h4
  · rw [processBatch_eq, hY]
    simp only [emitE]
    simpa using h5
  · rw [processBatch_eq, hY]
    simp only [emitE]
    simpa using h6
  · rw [processBatch_eq, hY]
    simp only [emitE]
    simpa using h7

theorem step_events_extend (d : MoorexDefinition St Sg Ef ε) (c : Cmd Sg ε)
    (es : EngineState St Sg Ef ε) :
    ∃ t, (step d c es).events = es.events ++ t := by
  cases c with
  | dispatch sg =>
      refine ⟨[], ?_⟩
      show (scheduleSig sg es).events = _
      rw [scheduleSig_fields]
      simp
  | drain =>
      show ∃ t, (drainTick d es).events = es.events ++ t
      unfold drainTick
      split
      · exact ⟨[], by simp⟩
      · split
        · exact ⟨[], by simp⟩
        · obtain ⟨t1, h1⟩ :=
            processBatch_events_extend d es.queue { es with queue := [] }
          unfold drainFinish
          split
          · refine ⟨es.queue.map
              (fun sg => ⟨.signalReceived sg, es.state, es.handlers⟩) ++ t1, ?_⟩
            show (processBatch d es.queue { es with queue := [] }).events = _
            rw [h1]
            simp [List.append_assoc]
          · refine ⟨es.queue.map
              (fun sg => ⟨.signalReceived sg, es.state, es.handlers⟩) ++ t1, ?_⟩
            show (processBatch d es.queue { es with queue := [] }).events = _
            rw [h1]
            simp [List.append_assoc]
  | settle id oc =>
      show ∃ t, (settleStep id oc es).events = es.events ++ t
      unfold settleStep
      split
      · exact ⟨[], by simp⟩
      · rename_i en hfind
        split
        · split
          · cases oc with
            | resolved =>
                refine ⟨[⟨.effectCompleted en.effect, es.state,
                  es.handlers⟩], ?_⟩
                simp [emitE]
            | rejected e =>
                refine ⟨[⟨.effectFailed en.effect e, es.state,
                  es.handlers⟩], ?_⟩
                simp [emitE]
          · exact ⟨[], by simp⟩
        · exact ⟨[], by simp⟩
  | scopedDisp key id sg =>
      show ∃ t, (guardedScopedDispatch key id sg es).events = es.events ++ t
      unfold guardedScopedDispatch
      split
      · split
        · rw [scheduleSig_fields]
          exact ⟨[], by simp⟩
        · exact ⟨[], by simp⟩
      · exact ⟨[], by simp⟩
  | subscribe hh =>
      show ∃ t, (if hh ∈ es.handlers then es
        else { es with handlers := es.handlers ++ [hh] }).events =
        es.events ++ t
      split
      · exact ⟨[], by simp⟩
      · exact ⟨[], by simp⟩
  | unsubscribe hh => exact ⟨[], by simp [step]⟩

theorem foldSteps_events_extend (d : MoorexDefinition St Sg Ef ε)
    (cmds : List (Cmd Sg ε)) (es : EngineState St Sg Ef ε) :
    ∃ t, (cmds.foldl (fun es c => step d c es) es).events =
      es.events ++ t := by
  induction cmds generalizing es with
  | nil => exact ⟨[], by simp⟩
  | cons c rest ih =>
      obtain ⟨t1, h1⟩ := step_events_extend d c es
      obtain ⟨t2, h2⟩ := ih (step d c es)
      exact ⟨t1 ++ t2, by rw [List.foldl_cons, h2, h1, List.append_assoc]⟩

theorem processBatch_mem_signal (d : MoorexDefinition St Sg Ef ε)
    (batch : List Sg) (es : EngineState St Sg Ef ε) (sg : Sg)
    (h : sg ∈ batch) :
    MoorexEvent.signalReceived sg ∈
      (processBatch d batch es).events.map EventRecord.event := by
  obtain ⟨t1, h1⟩ := processBatch_events_extend d batch es
  rw [h1]
  simp only [List.map_append, List.mem_append, List.map_map]
  left
  right
  exact List.mem_map.mpr ⟨sg, h, rfl⟩

theorem drainFinish_events (es : EngineState St Sg Ef ε) :
    (drainFinish es).events = es.events := by
  unfold drainFinish
  split
  · rfl
  · rfl

/-- After any interaction history, a freshly dispatched signal is still
delivered to the batch processor by the next drain microtask: its
`signal-received` event appears in the log. -/
theorem dispatch_then_drain_processes (d : MoorexDefinition St Sg Ef ε)
    (cmds : List (Cmd Sg ε)) (sg : Sg) :
    MoorexEvent.signalReceived sg ∈
      ((run d (cmds ++ [.dispatch sg, .drain])).events.map
        EventRecord.event) := by
  have hsplit : run d (cmds ++ [.dispatch sg, .drain]) =
      step d .drain (step d (.dispatch sg) (run d cmds)) := by
    unfold run
    rw [List.foldl_append]
    rfl
  rw [hsplit]
  simp only [step]
  rw [scheduleSig_fields]
  rw [show ∀ es : EngineState St Sg Ef ε, drainTick d es =
      (if !es.draining then es
       else if es.queue.isEmpty then { es with draining := false }
       else drainFinish (processBatch d es.queue { es with queue := [] }))
    from fun _ => rfl]
  simp only [Bool.not_true, Bool.false_eq_true, if_false]
  have hne : (((run d cmds).queue ++ [sg]).isEmpty) = false := by
    simp
  simp only [hne, Bool.false_eq_true, if_false, drainFinish_events]
  exact processBatch_mem_signal d _ _ sg (by simp)

/-! ## Emitter behaviour lemmas -/

theorem liveEmitAux_selfOnly (beh : Nat → EmitAction) :
    ∀ (rem kept log : List Nat),
      (∀ h ∈ rem, beh h = .idle ∨ beh h = .unsub h) →
      (liveEmitAux beh rem kept log).2 = log ++ rem := by
  intro rem
  induction rem with
  | nil =>
      intro kept log _
      simp [liveEmitAux]
  | cons h rest ih =>
      intro kept log hbeh
      rcases hbeh h (by simp) with hb | hb
      · rw [liveEmitAux, hb]
        rw [ih _ _ (fun h' hh' => hbeh h' (by simp [hh']))]
        simp
      · rw [liveEmitAux, hb]
        simp only [eq_self_iff_true, if_true]
        rw [ih _ _ (fun h' hh' => hbeh h' (by simp [hh']))]
        simp

theorem liveEmitAux_log_sub (beh : Nat → EmitAction) :
    ∀ (n : Nat) (rem : List Nat), rem.length ≤ n → ∀ (kept log : List Nat),
      ∃ s, (liveEmitAux beh rem kept log).2 = log ++ s ∧ s.Sublist rem := by
  intro n
  induction n with
  | zero =>
      intro rem hlen kept log
      have : rem = [] := List.length_eq_zero.mp (Nat.le_zero.mp hlen)
      subst this
      exact ⟨[], by simp [liveEmitAux], List.Sublist.refl _⟩
  | succ n ih =>
      intro rem hlen kept log
      cases rem with
      | nil => exact ⟨[], by simp [liveEmitAux], List.Sublist.refl _⟩
      | cons h rest =>
          have hlen' : rest.length ≤ n := by
            simpa [Nat.succ_le_succ_iff] using hlen
          cases hb : beh h with
          | idle =>
              obtain ⟨s, hs1, hs2⟩ := ih rest hlen' (kept ++ [h]) (log ++ [h])
              rw [liveEmitAux, hb]
              exact ⟨h :: s, by simp [hs1], hs2.cons₂ h⟩
          | unsub t =>
              by_cases ht : t = h
              · obtain ⟨s, hs1, hs2⟩ := ih rest hlen' kept (log ++ [h])
                rw [liveEmitAux, hb]
                simp only [ht, if_pos rfl]
                exact ⟨h :: s, by simp [hs1], hs2.cons₂ h⟩
              · have hlen'' : (rest.filter (· ≠ t)).length ≤ n :=
                  le_trans (List.length_filter_le _ _) hlen'
                obtain ⟨s, hs1, hs2⟩ := ih (rest.filter (· ≠ t)) hlen''
                  ((kept ++ [h]).filter (· ≠ t)) (log ++ [h])
                rw [liveEmitAux, hb]
                simp only [if_neg ht]
                refine ⟨h :: s, ?_, ?_⟩
                · show (liveEmitAux beh (rest.filter (· ≠ t))
                      ((kept ++ [h]).filter (· ≠ t)) (log ++ [h])).2 =
                    log ++ (h :: s)
                  rw [hs1]
                  simp
                · exact (hs2.trans (List.filter_sublist rest)).cons₂ h

/-! ## Reconciliation preservation lemmas -/

theorem foldDelete_get (obs : List (String × RunningEffect Sg Ef ε))
    (m : List (String × RunningEffect Sg Ef ε)) (key : String)
    (h : ∀ kv ∈ obs, kv.1 ≠ key) :
    mapGet (obs.foldl (fun m' kv => mapDelete m' kv.1) m) key =
      mapGet m key := by
  induction obs generalizing m with
  | nil => rfl
  | cons kv obs' ih =>
      rw [List.foldl_cons, ih _ (fun kv' h' => h kv' (by simp [h']))]
      exact mapGet_delete_ne m kv.1 key (Ne.symm (h kv (by simp)))

theorem obsoleteOf_not_desired (desired : List (String × Ef))
    (l : List (String × RunningEffect Sg Ef ε)) :
    ∀ kv ∈ obsoleteOf desired l, mapHasKey desired kv.1 = false := by
  intro kv h
  have := List.of_mem_filter h
  simpa using this

/-- A key that is both running and still desired survives a reconciliation
pass with its entry object untouched, and the pass neither calls `runEffect`
nor `cancel` for that key. -/
theorem recon_preserve (d : MoorexDefinition St Sg Ef ε)
    (es : EngineState St Sg Ef ε) (key : String) (v : RunningEffect Sg Ef ε)
    (hcoh : ∀ kv ∈ es.running, kv.2.key = kv.1)
    (hget : mapGet es.running key = some v)
    (hdes : mapHasKey (d.effectsAt es.state) key = true) :
    mapGet (reconcileEffects d es).running key = some v ∧
    (∀ c ∈ (reconcileEffects d es).runCalls,
      c ∈ es.runCalls ∨ c.1 ≠ key) ∧
    (∀ k ∈ (reconcileEffects d es).cancelCalls,
      k ∈ es.cancelCalls ∨ k ≠ key) := by
  have hC := cancelObsolete_spec (d.effectsAt es.state) es hcoh
  have hobs : ∀ kv ∈ obsoleteOf (d.effectsAt es.state) es.running,
      kv.1 ≠ key := by
    intro kv h hk
    have := obsoleteOf_not_desired (d.effectsAt es.state) es.running kv h
    rw [hk, hdes] at this
    exact Bool.true_eq_false.mp this
  have hCget : mapGet
      (cancelObsolete (d.effectsAt es.state) es).running key = some v := by
    rw [hC]
    show mapGet ((obsoleteOf (d.effectsAt es.state) es.running).foldl
      (fun m' kv => mapDelete m' kv.1) es.running) key = some v
    rw [foldDelete_get _ _ _ hobs]
    exact hget
  obtain ⟨hS1, hS2⟩ := startNew_preserve d (d.effectsAt es.state)
    (cancelObsolete (d.effectsAt es.state) es) key v hCget
  refine ⟨hS1, ?_, ?_⟩
  · intro c hc
    rcases hS2 c hc with hc' | hc'
    · rw [hC] at hc'
      exact Or.inl hc'
    · exact Or.inr hc'
  · intro k hk
    obtain ⟨_, _, _, _, q5, _⟩ :=
      startNew_spec d (d.effectsAt es.state)
        (cancelObsolete (d.effectsAt es.state) es)
    have hk' : k ∈ (startNew d (d.effectsAt es.state)
        (cancelObsolete (d.effectsAt es.state) es)).cancelCalls := hk
    rw [q5, hC] at hk'
    have hk'' : k ∈ es.cancelCalls ++
        (obsoleteOf (d.effectsAt es.state) es.running).map Prod.fst := hk'
    rcases List.mem_append.mp hk'' with hk3 | hk3
    · exact Or.inl hk3
    · rcases List.mem_map.mp hk3 with ⟨kv, hkv, hkveq⟩
      exact Or.inr (hkveq ▸ hobs kv hkv)

/-- The non-event, non-queue outputs of a batch coincide with those of a
single reconciliation pass run against the folded state: `effectsAt` is
consulted only there. -/
theorem processBatch_core (d : MoorexDefinition St Sg Ef ε) (batch : List Sg)
    (es : EngineState St Sg Ef ε)
    (hcoh : ∀ kv ∈ es.running, kv.2.key = kv.1) :
    (processBatch d batch es).running =
      (reconcileEffects d
        { es with
          state := batch.foldl (fun s sg => d.transition sg s) es.state
        }).running ∧
    (processBatch d batch es).pending =
      (reconcileEffects d
        { es with
          state := batch.foldl (fun s sg => d.transition sg s) es.state
        }).pending ∧
    (processBatch d batch es).nextId =
      (reconcileEffects d
        { es with
          state := batch.foldl (fun s sg => d.transition sg s) es.state
        }).nextId ∧
    (processBatch d batch es).runCalls =
      (reconcileEffects d
        { es with
          state := batch.foldl (fun s sg => d.transition sg s) es.state
        }).runCalls ∧
    (processBatch d batch es).cancelCalls =
      (reconcileEffects d
        { es with
          state := batch.foldl (fun s sg => d.transition sg s) es.state
        }).cancelCalls := by
  obtain ⟨t, h1, h2, h3, h4, h5, h6, h7⟩ := recon_master d
    { es with state := batch.foldl (fun s sg => d.transition sg s) es.state }
    (by simpa using hcoh)
  have hY : reconcileEffects d
      { es with
        state := batch.foldl (fun s sg => d.transition sg s) es.state,
        events := es.events ++ batch.map
          (fun sg => ⟨.signalReceived sg, es.state, es.handlers⟩) } =
      { reconcileEffects d
          { es with
            state := batch.foldl (fun s sg => d.transition sg s) es.state }
        with
        events := (es.events ++ batch.map
          (fun sg => ⟨.signalReceived sg, es.state, es.handlers⟩)) ++ t } :=
    h3 (es.events ++ batch.map
      (fun sg => ⟨.signalReceived sg, es.state, es.handlers⟩))
  rw [processBatch_eq, hY]
  exact ⟨rfl, rfl, rfl, rfl, rfl⟩

/-- Construction: `createMoorex` runs one reconciliation pass against the
initial state with an empty handler set and an empty queue.  Every event
emitted during construction is a reconciliation-kind event recorded with an
empty handler snapshot. -/
theorem initEngine_fields (d : MoorexDefinition St Sg Ef ε) :
    (initEngine d).state = d.initiate ∧
    (initEngine d).queue = [] ∧
    (initEngine d).draining = false ∧
    (initEngine d).handlers = [] ∧
    ∀ r ∈ (initEngine d).events, isReconKind r.event = true ∧
      r.stateAtEmit = d.initiate ∧ r.handlersAtEmit = [] := by
  obtain ⟨t, h1, h2, _h3, h4, h5, h6, h7⟩ := recon_master d
    { state := d.initiate, running := [], queue := [], draining := false,
      nextId := 0, pending := [], handlers := [], events := [],
      runCalls := [], cancelCalls := [] } (by simp)
  refine ⟨h4, h5, h6, h7, ?_⟩
  intro r hr
  have : r ∈ t := by
    have := h1
    unfold initEngine at hr
    rw [this] at hr
    simpa using hr
  exact h2 r this

/-! ## Branch lemmas for the settlement continuations -/

theorem settleStep_stale_none (es : EngineState St Sg Ef ε) (id : Nat)
    (oc : Settlement ε) (en : RunningEffect Sg Ef ε)
    (hfind : es.pending.find? (fun e' => e'.id = id) = some en)
    (hget : mapGet es.running en.key = none) :
    settleStep id oc es =
      { es with pending := es.pending.filter (fun e' => e'.id ≠ id) } := by
  unfold settleStep
  rw [hfind]
  dsimp only
  rw [hget]

theorem settleStep_stale_mismatch (es : EngineState St Sg Ef ε) (id : Nat)
    (oc : Settlement ε) (en cur : RunningEffect Sg Ef ε)
    (hfind : es.pending.find? (fun e' => e'.id = id) = some en)
    (hget : mapGet es.running en.key = some cur) (hid : cur.id ≠ en.id) :
    settleStep id oc es =
      { es with pending := es.pending.filter (fun e' => e'.id ≠ id) } := by
  unfold settleStep
  rw [hfind]
  dsimp only
  rw [hget]
  dsimp only
  rw [if_neg hid]

theorem settleStep_resolve (es : EngineState St Sg Ef ε) (id : Nat)
    (en cur : RunningEffect Sg Ef ε)
    (hfind : es.pending.find? (fun e' => e'.id = id) = some en)
    (hget : mapGet es.running en.key = some cur) (hid : cur.id = en.id) :
    settleStep id Settlement.resolved es =
      emitE
        { es with pending := es.pending.filter (fun e' => e'.id ≠ id),
                  running := mapDelete es.running en.key }
        (.effectCompleted en.effect) := by
  unfold settleStep
  rw [hfind]
  dsimp only
  rw [hget]
  dsimp only
  rw [if_pos hid]

theorem settleStep_reject (es : EngineState St Sg Ef ε) (id : Nat) (e : ε)
    (en cur : RunningEffect Sg Ef ε)
    (hfind : es.pending.find? (fun e' => e'.id = id) = some en)
    (hget : mapGet es.running en.key = some cur) (hid : cur.id = en.id) :
    settleStep id (Settlement.rejected e) es =
      emitE
        { es with pending := es.pending.filter (fun e' => e'.id ≠ id),
                  running := mapDelete es.running en.key }
        (.effectFailed en.effect e) := by
  unfold settleStep
  rw [hfind]
  dsimp only
  rw [hget]
  dsimp only
  rw [if_pos hid]

/-! ## Claim theorems -/

/-- C1: every error on the effect path is recovered locally and converted
into an `effect-failed` event: a `runEffect` that throws during construction
creates no running entry and emits exactly one `effect-failed`; a throwing
`cancel` leaves the entry already removed and surfaces the error as
`effect-failed`; a rejecting completion promise of a still-current entry
removes the entry and emits exactly one `effect-failed` carrying the reason;
a settlement whose entry was already removed deletes nothing again and emits
nothing (the entry is removed exactly once); after any interaction history a
later dispatched signal is still processed; and the running-effects map of
every reachable engine state stays consistent (unique keys).  (Start failure
is the rejection of the promise `start` returns, per the async contract.) -/
theorem c1_effect_path_errors_recovered :
    (∀ (d : MoorexDefinition St Sg Ef ε) (key : String) (eff : Ef)
      (stArg : St) (es : EngineState St Sg Ef ε) (e : ε),
      d.runEffect eff stArg key = TResult.thrown e →
      (startEffect d key eff stArg es).running = es.running ∧
      (startEffect d key eff stArg es).pending = es.pending ∧
      (startEffect d key eff stArg es).queue = es.queue ∧
      (startEffect d key eff stArg es).events = es.events ++
        [⟨.effectFailed eff e, es.state, es.handlers⟩]) ∧
    (∀ (key : String) (en : RunningEffect Sg Ef ε)
      (es : EngineState St Sg Ef ε) (e : ε),
      en.key = key → en.cancel = CancelBehavior.throwErr e →
      mapGet (cancelEntry key en es).running key = none ∧
      (cancelEntry key en es).cancelCalls = es.cancelCalls ++ [key] ∧
      (cancelEntry key en es).events = es.events ++
        [⟨.effectFailed en.effect e, es.state, es.handlers⟩,
         ⟨.effectCanceled en.effect, es.state, es.handlers⟩]) ∧
    (∀ (es : EngineState St Sg Ef ε) (id : Nat)
      (en cur : RunningEffect Sg Ef ε) (e : ε),
      es.pending.find? (fun e' => e'.id = id) = some en →
      mapGet es.running en.key = some cur → cur.id = en.id →
      (settleStep id (Settlement.rejected e) es).running =
        mapDelete es.running en.key ∧
      (settleStep id (Settlement.rejected e) es).events = es.events ++
        [⟨.effectFailed en.effect e, es.state, es.handlers⟩]) ∧
    (∀ (es : EngineState St Sg Ef ε) (id : Nat) (oc : Settlement ε)
      (en : RunningEffect Sg Ef ε),
      es.pending.find? (fun e' => e'.id = id) = some en →
      mapGet es.running en.key = none →
      (settleStep id oc es).running = es.running ∧
      (settleStep id oc es).events = es.events) ∧
    (∀ (d : MoorexDefinition St Sg Ef ε) (cmds : List (Cmd Sg ε)) (sg : Sg),
      MoorexEvent.signalReceived sg ∈
        ((run d (cmds ++ [.dispatch sg, .drain])).events.map
          EventRecord.event)) ∧
    (∀ (d : MoorexDefinition St Sg Ef ε) (cmds : List (Cmd Sg ε)),
      ((run d cmds).running.map Prod.fst).Nodup) := by
  refine ⟨?_, ?_, ?_, ?_, ?_, ?_⟩
  · intro d key eff stArg es e h
    rw [startEffect_thrown d key eff stArg es e h]
    exact ⟨rfl, rfl, rfl, rfl⟩
  · intro key en es e hk hc
    rw [cancelEntry_spec key en es hk]
    refine ⟨?_, rfl, ?_⟩
    · show mapGet (mapDelete es.running key) key = none
      exact mapGet_delete_self es.running key
    · show es.events ++ cancelEvents es.state es.handlers en = _
      rw [show cancelEvents es.state es.handlers en =
        [⟨.effectFailed en.effect e, es.state, es.handlers⟩,
         ⟨.effectCanceled en.effect, es.state, es.handlers⟩] by
          simp [cancelEvents, hc]]
  · intro es id en cur e hfind hget hid
    rw [settleStep_reject es id e en cur hfind hget hid]
    exact ⟨rfl, rfl⟩
  · intro es id oc en hfind hget
    rw [settleStep_stale_none es id oc en hfind hget]
    exact ⟨rfl, rfl⟩
  · intro d cmds sg
    exact dispatch_then_drain_processes d cmds sg
  · intro d cmds
    exact (run_good d cmds).1

/-- C1 witness: the construction-throw clause at a concrete machine, the
stale-settlement clause after a concrete cancel, and map consistency of a
concrete reachable state. -/
theorem c1_witness :
    (startEffect dC1 "alpha" () false (initEngine dC1)).running =
      (initEngine dC1).running ∧
    (settleStep 0 Settlement.resolved
      (run dW1 [Cmd.dispatch (), Cmd.drain])).events =
      (run dW1 [Cmd.dispatch (), Cmd.drain]).events ∧
    ((run dW1 [Cmd.dispatch ()]).running.map Prod.fst).Nodup := by
  refine ⟨?_, ?_, ?_⟩
  · exact (c1_effect_path_errors_recovered.1 dC1 "alpha" () false
      (initEngine dC1) () (by decide)).1
  · exact (c1_effect_path_errors_recovered.2.2.2.1
      (run dW1 [Cmd.dispatch (), Cmd.drain]) 0 Settlement.resolved
      ⟨0, "alpha", (), CancelBehavior.ret⟩ (by decide) (by decide)).2
  · exact (c1_effect_path_errors_recovered.2.2.2.2.2) dW1 [Cmd.dispatch ()]

/-- C2 counterexample: with a throwing `cancel`, the engine emits BOTH
`effect-failed` and `effect-canceled` for the canceled effect — the claim
states `effect-canceled` is not emitted in that case.  The source emits
`effect-canceled` unconditionally after `withEffectErrorHandling` returns. -/
theorem c2_cancel_throw_counterexample :
    ((run dC2 [Cmd.dispatch (), Cmd.drain]).events.map EventRecord.event) =
      [.effectStarted (), .signalReceived (), .effectFailed () (),
       .effectCanceled (), .stateUpdated false] ∧
    ((run dC2 [Cmd.dispatch (), Cmd.drain]).events.map
      EventRecord.event).countP (fun ev => isCanceledKind ev) = 1 := by
  exact ⟨by decide, by decide⟩

/-- C2 (amended): on the cancel path the engine removes the map entry first
and then calls `cancel()` exactly once per removed key; if `cancel()` throws,
exactly one `effect-failed` AND one `effect-canceled` are emitted (the
cancellation event is emitted unconditionally, amending the claim's "not
emitted"); if `cancel()` returns normally, exactly one `effect-canceled` is
emitted; the entry is already gone when cancel runs, so a synchronous
re-entrant guarded dispatch from inside cancel observes the effect as absent
and is suppressed. -/
theorem c2_cancel_path_amended :
    (∀ (key : String) (en : RunningEffect Sg Ef ε)
      (es : EngineState St Sg Ef ε), en.key = key →
      mapGet (cancelEntry key en es).running key = none ∧
      (cancelEntry key en es).cancelCalls = es.cancelCalls ++ [key]) ∧
    (∀ (key : String) (en : RunningEffect Sg Ef ε)
      (es : EngineState St Sg Ef ε) (e : ε), en.key = key →
      en.cancel = CancelBehavior.throwErr e →
      (cancelEntry key en es).events = es.events ++
        [⟨.effectFailed en.effect e, es.state, es.handlers⟩,
         ⟨.effectCanceled en.effect, es.state, es.handlers⟩]) ∧
    (∀ (key : String) (en : RunningEffect Sg Ef ε)
      (es : EngineState St Sg Ef ε), en.key = key →
      en.cancel = CancelBehavior.ret →
      (cancelEntry key en es).events = es.events ++
        [⟨.effectCanceled en.effect, es.state, es.handlers⟩]) ∧
    (∀ (key : String) (en : RunningEffect Sg Ef ε)
      (es : EngineState St Sg Ef ε) (sg : Sg), en.key = key →
      en.cancel = CancelBehavior.dispatchScoped sg →
      (cancelEntry key en es).queue = es.queue ∧
      (cancelEntry key en es).events = es.events ++
        [⟨.effectCanceled en.effect, es.state, es.handlers⟩]) ∧
    (∀ (desired : List (String × Ef)) (es : EngineState St Sg Ef ε),
      (∀ kv ∈ es.running, kv.2.key = kv.1) →
      (cancelObsolete desired es).cancelCalls = es.cancelCalls ++
        (obsoleteOf desired es.running).map Prod.fst) := by
  refine ⟨?_, ?_, ?_, ?_, ?_⟩
  · intro key en es hk
    rw [cancelEntry_spec key en es hk]
    refine ⟨?_, rfl⟩
    show mapGet (mapDelete es.running key) key = none
    exact mapGet_delete_self es.running key
  · intro key en es e hk hc
    rw [cancelEntry_spec key en es hk]
    show es.events ++ cancelEvents es.state es.handlers en = _
    rw [show cancelEvents es.state es.handlers en =
      [⟨.effectFailed en.effect e, es.state, es.handlers⟩,
       ⟨.effectCanceled en.effect, es.state, es.handlers⟩] by
        simp [cancelEvents, hc]]
  · intro key en es hk hc
    rw [cancelEntry_spec key en es hk]
    show es.events ++ cancelEvents es.state es.handlers en = _
    rw [show cancelEvents es.state es.handlers en =
      [⟨.effectCanceled en.effect, es.state, es.handlers⟩] by
        simp [cancelEvents, hc]]
  · intro key en es sg hk hc
    rw [cancelEntry_spec key en es hk]
    refine ⟨rfl, ?_⟩
    show es.events ++ cancelEvents es.state es.handlers en = _
    rw [show cancelEvents es.state es.handlers en =
      [⟨.effectCanceled en.effect, es.state, es.handlers⟩] by
        simp [cancelEvents, hc]]
  · intro desired es hcoh
    rw [cancelObsolete_spec desired es hcoh]

/-- C2 witness: the amended clauses at a concrete canceled entry. -/
theorem c2_witness :
    mapGet (cancelEntry "alpha" ⟨0, "alpha", (), CancelBehavior.throwErr ()⟩
      (initEngine dC2)).running "alpha" = none ∧
    (cancelEntry "alpha" ⟨0, "alpha", (), CancelBehavior.throwErr ()⟩
      (initEngine dC2)).events = (initEngine dC2).events ++
      [⟨.effectFailed () (), (initEngine dC2).state,
        (initEngine dC2).handlers⟩,
       ⟨.effectCanceled (), (initEngine dC2).state,
        (initEngine dC2).handlers⟩] := by
  exact ⟨(c2_cancel_path_amended.1 "alpha"
      ⟨0, "alpha", (), CancelBehavior.throwErr ()⟩ (initEngine dC2) rfl).1,
    c2_cancel_path_amended.2.1 "alpha"
      ⟨0, "alpha", (), CancelBehavior.throwErr ()⟩ (initEngine dC2) () rfl rfl⟩

/-- C3: when a completion promise settles, the guarded continuation checks
whether the entry is still the current one for its key: if the key is absent
or mapped to a different entry (canceled or replaced), the settlement is
ignored — no event is emitted and the running map is untouched; if the entry
is still current, it is removed and exactly one `effect-completed` (resolve)
or `effect-failed` carrying the rejection reason (reject) is emitted. -/
theorem c3_settle_guard :
    (∀ (es : EngineState St Sg Ef ε) (id : Nat) (oc : Settlement ε)
      (en : RunningEffect Sg Ef ε),
      es.pending.find? (fun e' => e'.id = id) = some en →
      mapGet es.running en.key = none →
      (settleStep id oc es).running = es.running ∧
      (settleStep id oc es).events = es.events) ∧
    (∀ (es : EngineState St Sg Ef ε) (id : Nat) (oc : Settlement ε)
      (en cur : RunningEffect Sg Ef ε),
      es.pending.find? (fun e' => e'.id = id) = some en →
      mapGet es.running en.key = some cur → cur.id ≠ en.id →
      (settleStep id oc es).running = es.running ∧
      (settleStep id oc es).events = es.events) ∧
    (∀ (es : EngineState St Sg Ef ε) (id : Nat)
      (en cur : RunningEffect Sg Ef ε),
      es.pending.find? (fun e' => e'.id = id) = some en →
      mapGet es.running en.key = some cur → cur.id = en.id →
      (settleStep id Settlement.resolved es).running =
        mapDelete es.running en.key ∧
      (settleStep id Settlement.resolved es).events = es.events ++
        [⟨.effectCompleted en.effect, es.state, es.handlers⟩]) ∧
    (∀ (es : EngineState St Sg Ef ε) (id : Nat) (e : ε)
      (en cur : RunningEffect Sg Ef ε),
      es.pending.find? (fun e' => e'.id = id) = some en →
      mapGet es.running en.key = some cur → cur.id = en.id →
      (settleStep id (Settlement.rejected e) es).running =
        mapDelete es.running en.key ∧
      (settleStep id (Settlement.rejected e) es).events = es.events ++
        [⟨.effectFailed en.effect e, es.state, es.handlers⟩]) := by
  refine ⟨?_, ?_, ?_, ?_⟩
  · intro es id oc en hfind hget
    rw [settleStep_stale_none es id oc en hfind hget]
    exact ⟨rfl, rfl⟩
  · intro es id oc en cur hfind hget hid
    rw [settleStep_stale_mismatch es id oc en cur hfind hget hid]
    exact ⟨rfl, rfl⟩
  · intro es id en cur hfind hget hid
    rw [settleStep_resolve es id en cur hfind hget hid]
    exact ⟨rfl, rfl⟩
  · intro es id e en cur hfind hget hid
    rw [settleStep_reject es id e en cur hfind hget hid]
    exact ⟨rfl, rfl⟩

/-- C3 witness: a current settlement completes the initial effect of `dW1`;
a stale settlement after a cancel is ignored. -/
theorem c3_witness :
    (settleStep 0 Settlement.resolved (initEngine dW1)).running =
      mapDelete (initEngine dW1).running "alpha" ∧
    (settleStep 0 Settlement.resolved (initEngine dW1)).events =
      (initEngine dW1).events ++
      [⟨.effectCompleted (), (initEngine dW1).state,
        (initEngine dW1).handlers⟩] ∧
    (settleStep 0 Settlement.resolved
      (run dW1 [Cmd.dispatch (), Cmd.drain])).running =
      (run dW1 [Cmd.dispatch (), Cmd.drain]).running := by
  refine ⟨?_, ?_, ?_⟩
  · exact (c3_settle_guard.2.2.1 (initEngine dW1) 0
      ⟨0, "alpha", (), CancelBehavior.ret⟩
      ⟨0, "alpha", (), CancelBehavior.ret⟩
      (by decide) (by decide) (by decide)).1
  · exact (c3_settle_guard.2.2.1 (initEngine dW1) 0
      ⟨0, "alpha", (), CancelBehavior.ret⟩
      ⟨0, "alpha", (), CancelBehavior.ret⟩
      (by decide) (by decide) (by decide)).2
  · exact (c3_settle_guard.1 (run dW1 [Cmd.dispatch (), Cmd.drain]) 0
      Settlement.resolved ⟨0, "alpha", (), CancelBehavior.ret⟩
      (by decide) (by decide)).1

/-- C4: the dispatch handed to an effect's `start` is guard-wrapped per
running entry: invoking it while the entry is still current is the same
engine step as a public dispatch and enqueues the signal; invoking it after
the entry was removed or replaced leaves the entire engine state unchanged —
the signal is never enqueued, so it can never reach `transition`, no
`signal-received` is emitted for it and the committed state is unaffected. -/
theorem c4_scoped_dispatch_guard :
    (∀ (d : MoorexDefinition St Sg Ef ε) (key : String) (id : Nat) (sg : Sg)
      (es : EngineState St Sg Ef ε) (cur : RunningEffect Sg Ef ε),
      mapGet es.running key = some cur → cur.id = id →
      step d (.scopedDisp key id sg) es = step d (.dispatch sg) es ∧
      (step d (.scopedDisp key id sg) es).queue = es.queue ++ [sg]) ∧
    (∀ (d : MoorexDefinition St Sg Ef ε) (key : String) (id : Nat) (sg : Sg)
      (es : EngineState St Sg Ef ε),
      mapGet es.running key = none →
      step d (.scopedDisp key id sg) es = es) ∧
    (∀ (d : MoorexDefinition St Sg Ef ε) (key : String) (id : Nat) (sg : Sg)
      (es : EngineState St Sg Ef ε) (cur : RunningEffect Sg Ef ε),
      mapGet es.running key = some cur → cur.id ≠ id →
      step d (.scopedDisp key id sg) es = es) := by
  refine ⟨?_, ?_, ?_⟩
  · intro d key id sg es cur hget hid
    constructor
    · show guardedScopedDispatch key id sg es = scheduleSig sg es
      unfold guardedScopedDispatch
      rw [hget]
      dsimp only
      rw [if_pos hid]
    · show (guardedScopedDispatch key id sg es).queue = es.queue ++ [sg]
      unfold guardedScopedDispatch
      rw [hget]
      dsimp only
      rw [if_pos hid, scheduleSig_fields]
  · intro d key id sg es hget
    show guardedScopedDispatch key id sg es = es
    unfold guardedScopedDispatch
    rw [hget]
  · intro d key id sg es cur hget hid
    show guardedScopedDispatch key id sg es = es
    unfold guardedScopedDispatch
    rw [hget]
    dsimp only
    rw [if_neg hid]

/-- C4 witness: the guard at concrete current and stale entries of `dW1`. -/
theorem c4_witness :
    step dW1 (.scopedDisp "alpha" 0 ()) (initEngine dW1) =
      step dW1 (.dispatch ()) (initEngine dW1) ∧
    step dW1 (.scopedDisp "alpha" 0 ())
      (run dW1 [Cmd.dispatch (), Cmd.drain]) =
      run dW1 [Cmd.dispatch (), Cmd.drain] ∧
    step dW1 (.scopedDisp "alpha" 7 ()) (initEngine dW1) =
      initEngine dW1 := by
  refine ⟨?_, ?_, ?_⟩
  · exact (c4_scoped_dispatch_guard.1 dW1 "alpha" 0 () (initEngine dW1)
      ⟨0, "alpha", (), CancelBehavior.ret⟩ (by decide) (by decide)).1
  · exact c4_scoped_dispatch_guard.2.1 dW1 "alpha" 0 ()
      (run dW1 [Cmd.dispatch (), Cmd.drain]) (by decide)
  · exact c4_scoped_dispatch_guard.2.2 dW1 "alpha" 7 () (initEngine dW1)
      ⟨0, "alpha", (), CancelBehavior.ret⟩ (by decide) (by decide)

/-- C5: over every interaction trace with a signal queue — including batch
processors that re-entrantly schedule during processing — the delivered
batches concatenated with the still-pending queue are exactly the scheduled
signals in schedule order (each scheduled signal is delivered exactly once,
FIFO, batches extracted atomically so in-processing schedules start a new
batch); whenever signals are pending a drain is pending too (no signal is
dropped, a new drain is triggered after a batch when signals arrived during
processing); and no drain ever fires on an empty batch (the boolean draining
guard admits at most one pending drain at a time, so drains never overlap). -/
theorem c5_signal_queue_exactly_once_fifo (react : List Sg → List Sg)
    (cmds : List (QCmd Sg)) :
    (qRun react cmds).delivered.flatten ++ (qRun react cmds).queue =
      (qRun react cmds).scheduled ∧
    ((qRun react cmds).queue ≠ [] → (qRun react cmds).draining = true) ∧
    (∀ b ∈ (qRun react cmds).delivered, b ≠ []) :=
  qRun_inv react cmds

/-- C5 witness: a concrete trace with a re-entrantly scheduling processor. -/
theorem c5_witness :
    (qRun (fun _ => [9]) [QCmd.schedule 7, QCmd.tick]).delivered.flatten ++
      (qRun (fun _ => [9]) [QCmd.schedule 7, QCmd.tick]).queue =
      (qRun (fun _ => [9]) [QCmd.schedule 7, QCmd.tick]).scheduled ∧
    ((qRun (fun _ => [9]) [QCmd.schedule 7, QCmd.tick]).queue ≠ [] →
      (qRun (fun _ => [9]) [QCmd.schedule 7, QCmd.tick]).draining = true) ∧
    (qRun (fun _ => [9]) [QCmd.schedule 7, QCmd.tick]).delivered = [[7]] := by
  refine ⟨(c5_signal_queue_exactly_once_fifo (fun _ => [9])
      [QCmd.schedule 7, QCmd.tick]).1,
    (c5_signal_queue_exactly_once_fifo (fun _ => [9])
      [QCmd.schedule 7, QCmd.tick]).2.1, by decide⟩

/-- C8 counterexample: the emitter iterates the live handler set, not a
snapshot.  With handlers `[0, 1]` registered and handler 0 unsubscribing
handler 1 during the emission, handler 1 is never invoked in that same
pass — the invocation log is `[0]`, not the registration snapshot `[0, 1]`
the claim requires. -/
theorem c8_snapshot_counterexample :
    (liveEmit behC8 [0, 1]).2 = [0] ∧ (liveEmit behC8 [0, 1]).2 ≠ [0, 1] := by
  have h : (liveEmit behC8 [0, 1]).2 = [0] := by
    rw [liveEmit, liveEmitAux]
    rw [show behC8 0 = EmitAction.unsub 1 by rfl]
    dsimp only
    rw [if_neg (by decide : ¬ ((1 : Nat) = 0))]
    rw [show List.filter (fun x => decide (x ≠ 1)) [1] = [] by rfl]
    rw [liveEmitAux]
    rfl
  exact ⟨h, by rw [h]; decide⟩

/-- C8 (amended): `emit` invokes handlers from the live registration set in
registration order — the invocation log is always a subsequence of the
handlers registered when emit was called; when every handler at most
unsubscribes itself, the pass invokes exactly the registered snapshot (a
self-unsubscription does not affect the current pass); unsubscribing a
not-yet-invoked handler removes it from the current pass (forced by the
counterexample); and the unsubscribe closure returned by `on` is an
idempotent no-op after its first call. -/
theorem c8_emit_amended :
    (∀ (beh : Nat → EmitAction) (hs : List Nat),
      (∀ h ∈ hs, beh h = EmitAction.idle ∨ beh h = EmitAction.unsub h) →
      (liveEmit beh hs).2 = hs) ∧
    (∀ (beh : Nat → EmitAction) (hs : List Nat),
      (liveEmit beh hs).2.Sublist hs) ∧
    (∀ (h : Nat) (hs : List Nat),
      unsubscribeFn h (unsubscribeFn h hs) = unsubscribeFn h hs) := by
  refine ⟨?_, ?_, ?_⟩
  · intro beh hs hbeh
    have := liveEmitAux_selfOnly beh hs [] [] hbeh
    simpa [liveEmit] using this
  · intro beh hs
    obtain ⟨s, hs1, hs2⟩ :=
      liveEmitAux_log_sub beh hs.length hs (Nat.le_refl _) [] []
    rw [liveEmit, hs1]
    simpa using hs2
  · intro h hs
    simp [unsubscribeFn, List.filter_filter]

/-- C8 witness: the amended clauses at concrete handler sets. -/
theorem c8_witness :
    (liveEmit (fun _ => EmitAction.idle) [3, 4]).2 = [3, 4] ∧
    (liveEmit behC8 [0, 1]).2.Sublist [0, 1] ∧
    unsubscribeFn 4 (unsubscribeFn 4 [3, 4]) = unsubscribeFn 4 [3, 4] := by
  refine ⟨?_, ?_, ?_⟩
  · exact c8_emit_amended.1 (fun _ => EmitAction.idle) [3, 4]
      (fun h _ => Or.inl rfl)
  · exact c8_emit_amended.2.1 behC8 [0, 1]
  · exact c8_emit_amended.2.2 4 [3, 4]

theorem reconKind_not_stateUpdated (ev : MoorexEvent St Sg Ef ε)
    (h : isReconKind ev = true) : isStateUpdatedKind ev = false := by
  cases ev <;> simp [isReconKind, isStateUpdatedKind] at h ⊢

theorem countP_stateUpdated_zero_of_recon
    (l : List (EventRecord St Sg Ef ε))
    (h : ∀ r ∈ l, isReconKind r.event = true) :
    (l.map EventRecord.event).countP (fun ev => isStateUpdatedKind ev) = 0 := by
  rw [List.countP_eq_zero]
  intro ev hev
  rcases List.mem_map.mp hev with ⟨r, hr, hre⟩
  rw [← hre]
  simp [reconKind_not_stateUpdated r.event (h r hr)]

theorem countP_stateUpdated_zero_of_signals (batch : List Sg) (st : St)
    (hs : List Nat) :
    ((batch.map (fun sg =>
        (⟨.signalReceived sg, st, hs⟩ : EventRecord St Sg Ef ε))).map
      EventRecord.event).countP (fun ev => isStateUpdatedKind ev) = 0 := by
  rw [List.countP_eq_zero]
  intro ev hev
  rcases List.mem_map.mp hev with ⟨r, hr, hre⟩
  rcases List.mem_map.mp hr with ⟨sg, _, hsg⟩
  rw [← hre, ← hsg]
  simp [isStateUpdatedKind]

theorem dispatch_dispatch_drain (d : MoorexDefinition St Sg Ef ε)
    (es : EngineState St Sg Ef ε) (a b : Sg) (hq : es.queue = []) :
    step d .drain (step d (.dispatch b) (step d (.dispatch a) es)) =
      drainFinish
        (processBatch d [a, b] { es with queue := [], draining := true }) := by
  simp only [step]
  rw [scheduleSig_fields, scheduleSig_fields, hq]
  rw [show ∀ es' : EngineState St Sg Ef ε, drainTick d es' =
      (if !es'.draining then es'
       else if es'.queue.isEmpty then { es' with draining := false }
       else drainFinish (processBatch d es'.queue { es' with queue := [] }))
    from fun _ => rfl]
  simp only [Bool.not_true, Bool.false_eq_true, if_false, List.nil_append]
  rfl

/-- C6: each batch is folded through `transition` before any reconciliation:
exactly one `signal-received` record per signal in arrival order opens the
batch's event block; reconciliation-kind events follow, and exactly one
`state-updated` closes it; the count of `state-updated` events grows by
exactly one per batch; the reconciliation outcome (running map, pending
handlers, allocation counter, `runEffect`/`cancel` invocations, committed
state) depends only on the batch's final folded state — `effectsAt` is never
consulted on an intermediate fold value; and dispatching two signals before
the next microtask yields exactly one `state-updated` event reflecting both
folds. -/
theorem c6_batch_fold_single_reconcile :
    (∀ (d : MoorexDefinition St Sg Ef ε) (batch : List Sg)
      (es : EngineState St Sg Ef ε),
      (∀ kv ∈ es.running, kv.2.key = kv.1) →
      ∃ t, (processBatch d batch es).events = es.events ++
          batch.map (fun sg => ⟨.signalReceived sg, es.state, es.handlers⟩) ++
          t ++
          [⟨.stateUpdated (batch.foldl (fun s sg => d.transition sg s)
              es.state),
            batch.foldl (fun s sg => d.transition sg s) es.state,
            es.handlers⟩] ∧
        ∀ r ∈ t, isReconKind r.event = true) ∧
    (∀ (d : MoorexDefinition St Sg Ef ε) (batch : List Sg)
      (es : EngineState St Sg Ef ε),
      (∀ kv ∈ es.running, kv.2.key = kv.1) →
      ((processBatch d batch es).events.map EventRecord.event).countP
          (fun ev => isStateUpdatedKind ev) =
        ((es.events.map EventRecord.event).countP
          (fun ev => isStateUpdatedKind ev)) + 1) ∧
    (∀ (d : MoorexDefinition St Sg Ef ε) (b₁ b₂ : List Sg)
      (es : EngineState St Sg Ef ε),
      (∀ kv ∈ es.running, kv.2.key = kv.1) →
      b₁.foldl (fun s sg => d.transition sg s) es.state =
        b₂.foldl (fun s sg => d.transition sg s) es.state →
      (processBatch d b₁ es).running = (processBatch d b₂ es).running ∧
      (processBatch d b₁ es).pending = (processBatch d b₂ es).pending ∧
      (processBatch d b₁ es).nextId = (processBatch d b₂ es).nextId ∧
      (processBatch d b₁ es).runCalls = (processBatch d b₂ es).runCalls ∧
      (processBatch d b₁ es).cancelCalls =
        (processBatch d b₂ es).cancelCalls ∧
      (processBatch d b₁ es).state = (processBatch d b₂ es).state) ∧
    (∀ (d : MoorexDefinition St Sg Ef ε) (a b : Sg),
      ((run d [.dispatch a, .dispatch b, .drain]).events.map
        EventRecord.event).countP (fun ev => isStateUpdatedKind ev) = 1 ∧
      MoorexEvent.stateUpdated (d.transition b (d.transition a d.initiate)) ∈
        (run d [.dispatch a, .dispatch b, .drain]).events.map
          EventRecord.event) := by
  refine ⟨?_, ?_, ?_, ?_⟩
  · intro d batch es hcoh
    obtain ⟨t, m1, m2, _⟩ := processBatch_master d batch es hcoh
    exact ⟨t, m1, fun r hr => (m2 r hr).1⟩
  · intro d batch es hcoh
    obtain ⟨t, m1, m2, _⟩ := processBatch_master d batch es hcoh
    rw [m1]
    simp only [List.map_append, List.countP_append]
    rw [countP_stateUpdated_zero_of_signals batch es.state es.handlers,
      countP_stateUpdated_zero_of_recon t (fun r hr => (m2 r hr).1)]
    simp [isStateUpdatedKind]
  · intro d b₁ b₂ es hcoh hfold
    obtain ⟨r1, p1, n1, rc1, cc1⟩ := processBatch_core d b₁ es hcoh
    obtain ⟨r2, p2, n2, rc2, cc2⟩ := processBatch_core d b₂ es hcoh
    obtain ⟨_, _, _, s1, _⟩ := processBatch_master d b₁ es hcoh
    obtain ⟨_, _, _, s2, _⟩ := processBatch_master d b₂ es hcoh
    rw [r1, r2, p1, p2, n1, n2, rc1, rc2, cc1, cc2, s1, s2, hfold]
    exact ⟨rfl, rfl, rfl, rfl, rfl, rfl⟩
  · intro d a b
    obtain ⟨h1, h2, h3, h4, h5⟩ := initEngine_fields d
    have hrun : run d [.dispatch a, .dispatch b, .drain] =
        drainFinish (processBatch d [a, b]
          { initEngine d with queue := [], draining := true }) := by
      show step d .drain (step d (.dispatch b)
        (step d (.dispatch a) (initEngine d))) = _
      exact dispatch_dispatch_drain d (initEngine d) a b h2
    obtain ⟨t, m1, m2, _⟩ := processBatch_master d [a, b]
      { initEngine d with queue := [], draining := true }
      (by simpa using (initEngine_good d).2)
    have hfold2 : ([a, b].foldl (fun s sg => d.transition sg s)
        ({ initEngine d with queue := [], draining := true } :
          EngineState St Sg Ef ε).state) =
        d.transition b (d.transition a d.initiate) := by
      show d.transition b (d.transition a (initEngine d).state) = _
      rw [h1]
    constructor
    · rw [hrun, drainFinish_events, m1]
      simp only [List.map_append, List.countP_append]
      rw [countP_stateUpdated_zero_of_signals,
        countP_stateUpdated_zero_of_recon t (fun r hr => (m2 r hr).1)]
      have hinit : ((({ initEngine d with queue := [], draining := true } :
          EngineState St Sg Ef ε).events).map EventRecord.event).countP
          (fun ev => isStateUpdatedKind ev) = 0 :=
        countP_stateUpdated_zero_of_recon _
          (fun r hr => (h5 r hr).1)
      rw [hinit]
      simp [isStateUpdatedKind]
    · rw [hrun, drainFinish_events, m1]
      simp only [List.map_append, List.mem_append]
      right
      rw [hfold2]
      simp
/-- C6 witness: dispatching two signals back-to-back on `dW1` yields exactly
one `state-updated` event reflecting both folds. -/
theorem c6_witness :
    ((run dW1 [.dispatch (), .dispatch (), .drain]).events.map
      EventRecord.event).countP (fun ev => isStateUpdatedKind ev) = 1 ∧
    MoorexEvent.stateUpdated
        (dW1.transition () (dW1.transition () dW1.initiate)) ∈
      (run dW1 [.dispatch (), .dispatch (), .drain]).events.map
        EventRecord.event ∧
    dW1.transition () (dW1.transition () dW1.initiate) = false := by
  have h := c6_batch_fold_single_reconcile.2.2.2 dW1 () ()
  exact ⟨h.1, h.2, by decide⟩

/-- C7 counterexample: on `dC7`, the construction state is 0 and a batch
folds it to 1, which implies effect "alpha".  The `effect-started` event
emitted during that batch's reconciliation snapshots `state = 1` — the
batch's folded, already-assigned value — although the most recent fully
processed batch had committed 0.  A handler calling `getState()` during
reconciliation therefore observes the current batch's folded value, not the
previous committed one as the claim states. -/
theorem c7_commit_counterexample :
    ((run dC7 [Cmd.dispatch (), Cmd.drain]).events.map
      (fun r => (r.event, r.stateAtEmit))) =
      [(.signalReceived (), 0), (.effectStarted 5, 1), (.stateUpdated 1, 1)] ∧
    (initEngine dC7).state = 0 := by
  exact ⟨by decide, by decide⟩

/-- C7 (amended): the folded state is assigned to the engine's `state`
variable after the fold and before reconciliation, so `signal-received`
handlers observe the previous committed state (never an interior fold
value), while handlers of the started/canceled/failed events emitted during
reconciliation observe the batch's final folded state; `state-updated` is
emitted once, last in the batch, carrying the folded state; and the batch
commits exactly the fold of the whole batch. -/
theorem c7_getstate_commit_amended :
    ∀ (d : MoorexDefinition St Sg Ef ε) (batch : List Sg)
      (es : EngineState St Sg Ef ε),
      (∀ kv ∈ es.running, kv.2.key = kv.1) →
      (processBatch d batch es).state =
        batch.foldl (fun s sg => d.transition sg s) es.state ∧
      ∃ t, (processBatch d batch es).events = es.events ++
          batch.map (fun sg => ⟨.signalReceived sg, es.state, es.handlers⟩) ++
          t ++
          [⟨.stateUpdated (batch.foldl (fun s sg => d.transition sg s)
              es.state),
            batch.foldl (fun s sg => d.transition sg s) es.state,
            es.handlers⟩] ∧
        ∀ r ∈ t, isReconKind r.event = true ∧
          r.stateAtEmit = batch.foldl (fun s sg => d.transition sg s)
            es.state := by
  intro d batch es hcoh
  obtain ⟨t, m1, m2, m3, _⟩ := processBatch_master d batch es hcoh
  exact ⟨m3, t, m1, fun r hr => ⟨(m2 r hr).1, (m2 r hr).2.1⟩⟩

/-- C7 witness: the amended clauses at the concrete machine `dC7`. -/
theorem c7_witness :
    (processBatch dC7 [()] (initEngine dC7)).state =
      [()].foldl (fun s sg => dC7.transition sg s) (initEngine dC7).state ∧
    [()].foldl (fun s sg => dC7.transition sg s) (initEngine dC7).state
      = 1 := by
  refine ⟨(c7_getstate_commit_amended dC7 [()] (initEngine dC7) ?_).1,
    by decide⟩
  decide

/-- C9: a key present in both the running map and the desired effect map is
left untouched by a reconciliation pass (also when the pass comes from an
arbitrary signal batch whose fold still desires the key): its RunningEffect
entry — hence its staleness token — is unchanged, `runEffect` is not invoked
for that key, and `cancel` is not invoked for that key, regardless of the
EffectSpec payload stored under the key in the desired map. -/
theorem c9_no_restart_for_persisting_keys :
    (∀ (d : MoorexDefinition St Sg Ef ε) (es : EngineState St Sg Ef ε)
      (key : String) (v : RunningEffect Sg Ef ε),
      (∀ kv ∈ es.running, kv.2.key = kv.1) →
      mapGet es.running key = some v →
      mapHasKey (d.effectsAt es.state) key = true →
      mapGet (reconcileEffects d es).running key = some v ∧
      (∀ c ∈ (reconcileEffects d es).runCalls,
        c ∈ es.runCalls ∨ c.1 ≠ key) ∧
      (∀ k ∈ (reconcileEffects d es).cancelCalls,
        k ∈ es.cancelCalls ∨ k ≠ key)) ∧
    (∀ (d : MoorexDefinition St Sg Ef ε) (batch : List Sg)
      (es : EngineState St Sg Ef ε) (key : String)
      (v : RunningEffect Sg Ef ε),
      (∀ kv ∈ es.running, kv.2.key = kv.1) →
      mapGet es.running key = some v →
      mapHasKey (d.effectsAt
        (batch.foldl (fun s sg => d.transition sg s) es.state)) key = true →
      mapGet (processBatch d batch es).running key = some v ∧
      (∀ c ∈ (processBatch d batch es).runCalls,
        c ∈ es.runCalls ∨ c.1 ≠ key) ∧
      (∀ k ∈ (processBatch d batch es).cancelCalls,
        k ∈ es.cancelCalls ∨ k ≠ key)) := by
  constructor
  · intro d es key v hcoh hget hdes
    exact recon_preserve d es key v hcoh hget hdes
  · intro d batch es key v hcoh hget hdes
    obtain ⟨r1, _p1, _n1, rc1, cc1⟩ := processBatch_core d batch es hcoh
    have hpres := recon_preserve d
      { es with state := batch.foldl (fun s sg => d.transition sg s) es.state }
      key v (by simpa using hcoh) hget hdes
    rw [r1, rc1, cc1]
    exact hpres

/-- C9 witness: on `dW1` before any signal, "alpha" is both running and
still desired, and a reconciliation pass leaves it untouched. -/
theorem c9_witness :
    mapGet (reconcileEffects dW1 (initEngine dW1)).running "alpha" =
      some ⟨0, "alpha", (), CancelBehavior.ret⟩ ∧
    ∀ k ∈ (reconcileEffects dW1 (initEngine dW1)).cancelCalls,
      k ∈ (initEngine dW1).cancelCalls ∨ k ≠ "alpha" := by
  have h := c9_no_restart_for_persisting_keys.1 dW1 (initEngine dW1) "alpha"
    ⟨0, "alpha", (), CancelBehavior.ret⟩ (by decide) (by decide) (by decide)
  exact ⟨h.1, h.2.2⟩

/-- C10: the construction-time reconciliation pass runs synchronously inside
`createMoorex` before the instance is returned, so its events are emitted to
an empty handler set (every construction event record carries an empty
handler snapshot) and later commands only ever append to the event log —
no handler registered through `on` afterwards is ever invoked with a
construction event. -/
theorem c10_construction_events_unobservable :
    (∀ (d : MoorexDefinition St Sg Ef ε),
      ∀ r ∈ (initEngine d).events, r.handlersAtEmit = []) ∧
    (∀ (d : MoorexDefinition St Sg Ef ε) (cmds : List (Cmd Sg ε)),
      ∃ t, (run d cmds).events = (initEngine d).events ++ t) := by
  constructor
  · intro d r hr
    exact ((initEngine_fields d).2.2.2.2 r hr).2.2
  · intro d cmds
    exact foldSteps_events_extend d cmds (initEngine d)

/-- C10 witness: construction of `dW1` emits a nonempty event list, all
records carrying the empty handler snapshot. -/
theorem c10_witness :
    (∀ r ∈ (initEngine dW1).events, r.handlersAtEmit = []) ∧
    (initEngine dW1).events =
      [⟨.effectStarted (), true, []⟩] := by
  exact ⟨c10_construction_events_unobservable.1 dW1, by decide⟩

end Moorex
